import Mathlib

/-!
Verification of the snekbox cog (`bot/exts/utils/snekbox.py`): code extraction
from chat markup, output formatting, and the per-user job registry loop.

Strings are modelled as `List Char` (Python code points); the fixed regular
expressions of the source are embedded as explicit backtracking matchers that
follow CPython's leftmost/priority semantics for these particular patterns.
External effects (the paste service, the snekbox POST call, message waits) are
modelled as explicit oracle parameters.
-/

namespace Snekbox

/-- Backtick character (code point 96), written via `Char.ofNat`. -/
def bt : Char := Char.ofNat 96

/-- Right-to-left override U+202E (second character class of `ESCAPE_REGEX`). -/
def rtlO : Char := Char.ofNat 0x202E

/-- Zero-width space U+200B (third character class of `ESCAPE_REGEX`). -/
def zwsp : Char := Char.ofNat 0x200B

/-- Space or tab, the character class `[ \t]` used by the blank-line and
indentation patterns. -/
def isSp2 (c : Char) : Bool := c = ' ' || c = '\t'

/-- Python's whitespace (`\s` on `str` patterns and `str.isspace`): ASCII
whitespace, the information separators, NEL, NBSP and the Unicode space
characters. -/
def isPySpace (c : Char) : Bool :=
  (9 ≤ c.toNat && c.toNat ≤ 13) || c.toNat = 32 ||
  (28 ≤ c.toNat && c.toNat ≤ 31) || c.toNat = 0x85 || c.toNat = 0xA0 ||
  c.toNat = 0x1680 || (0x2000 ≤ c.toNat && c.toNat ≤ 0x200A) ||
  c.toNat = 0x2028 || c.toNat = 0x2029 || c.toNat = 0x202F ||
  c.toNat = 0x205F || c.toNat = 0x3000

/-- ASCII letter: the class `[a-z]` of the language tag under `re.IGNORECASE`
(non-ASCII case-folding exotica such as U+212A are not modelled). -/
def isAsciiLetter (c : Char) : Bool :=
  (('a' ≤ c && c ≤ 'z') || ('A' ≤ c && c ≤ 'Z'))

/-- ASCII digit: the class `\d` of `TIMEIT_OUTPUT_REGEX` (Python also accepts
non-ASCII Unicode decimal digits; those are not modelled). -/
def isAsciiDigit (c : Char) : Bool := '0' ≤ c && c ≤ '9'

/-- Character of `ESCAPE_REGEX`'s class: backtick, U+202E or U+200B. -/
def isEscChar (c : Char) : Bool := c = bt || c = rtlO || c = zwsp

/-- `output.rstrip("\n")`: remove trailing newline characters only. -/
def rstripNl (l : List Char) : List Char :=
  (l.reverse.dropWhile (fun c => c = '\n')).reverse

/-- Remove the maximal all-`\s` suffix (the `\s*$` tail of `RAW_CODE_REGEX`). -/
def rstripWs (l : List Char) : List Char :=
  (l.reverse.dropWhile isPySpace).reverse

/-- Strip whitespace from both ends, as Python's `str.strip()`. -/
def pyStripAll (l : List Char) : List Char :=
  rstripWs (l.dropWhile isPySpace)

/-- The character at position `i`, if any. -/
def charAt (s : List Char) (i : Nat) : Option Char := (s.drop i).head?

/-- Scanner for the leading `(?:[ \t]*\n)*` blank lines: `pending` holds (in
reverse) the spaces/tabs of the current line, restored if the line turns out
not to be blank. -/
def dropBlankLinesGo (pending : List Char) : List Char → List Char
  | [] => pending.reverse
  | c :: cs =>
    if isSp2 c then dropBlankLinesGo (c :: pending) cs
    else if c = '\n' then dropBlankLinesGo [] cs
    else pending.reverse ++ c :: cs

/-- Remove the leading blank lines matched by `(?:[ \t]*\n)*` at the start of
the string: repeatedly drop a run of spaces/tabs followed by a newline. -/
def dropBlankLines (s : List Char) : List Char := dropBlankLinesGo [] s

/-- The code group of `RAW_CODE_REGEX`: leading blank lines stripped, then the
maximal whitespace suffix stripped (`.*?` is lazy, `\s*$` greedy). -/
def rawCode (s : List Char) : List Char := rstripWs (dropBlankLines s)

/-- Lazy search for the `(?P<code>.*?)\s*$` tail of `RAW_CODE_REGEX`: extend
the code group one character at a time until the remainder is all whitespace
(an empty remainder is trivially all whitespace). -/
def findCodeAux (acc : List Char) : List Char → Option (List Char)
  | [] => some acc.reverse
  | c :: cs =>
    if (c :: cs).all isPySpace then some acc.reverse
    else findCodeAux (c :: acc) cs

/-- `RAW_CODE_REGEX.fullmatch(code)` as the source calls it: an `Option`,
`none` standing for a failed match (`AttributeError` in Python). -/
def rawFullmatch (s : List Char) : Option (List Char) :=
  findCodeAux [] (dropBlankLines s)

/-- Split a string at every newline, keeping empty segments, as Python's
`str.split("\n")`. -/
def splitNl : List Char → List (List Char)
  | [] => [[]]
  | c :: rest =>
    if c = '\n' then [] :: splitNl rest
    else
      match splitNl rest with
      | [] => [[c]]
      | l :: ls => (c :: l) :: ls

/-- Join segments with a newline separator, as `"\n".join(...)`. -/
def joinNl : List (List Char) → List Char
  | [] => []
  | [l] => l
  | l :: l2 :: ls => l ++ '\n' :: joinNl (l2 :: ls)

/-- Whether `pat` occurs as a contiguous substring (Python's `in`). -/
def hasSub (pat : List Char) : List Char → Bool
  | [] => pat.isPrefixOf []
  | c :: cs => pat.isPrefixOf (c :: cs) || hasSub pat cs

/-- Scanner for `str.replace`: while `skip` is positive the character belongs
to an already-replaced occurrence and is dropped; at `skip = 0` a fresh
occurrence of the pattern emits the replacement and skips the pattern's
remaining characters. -/
def listReplaceGo (p : Char) (ps rep : List Char) : Nat → List Char → List Char
  | _, [] => []
  | skip + 1, _ :: cs => listReplaceGo p ps rep skip cs
  | 0, c :: cs =>
    if (p :: ps).isPrefixOf (c :: cs) then
      rep ++ listReplaceGo p ps rep ps.length cs
    else
      c :: listReplaceGo p ps rep 0 cs

/-- Python's `str.replace`, scanning left to right without rescanning the
replacement; the pattern `p :: ps` is nonempty (both patterns of the source,
`"<@"` and `"<!@"`, are). -/
def listReplace (p : Char) (ps rep : List Char) (l : List Char) : List Char :=
  listReplaceGo p ps rep 0 l

/-- Whether `ESCAPE_REGEX` (`[`‮​]{3,}`) finds a match: three
consecutive characters of the class. -/
def hasEscapeRun : List Char → Bool
  | a :: b :: c :: rest =>
    (isEscChar a && isEscChar b && isEscChar c) || hasEscapeRun (b :: c :: rest)
  | _ => false

/-! ### The `FORMATTED_CODE_REGEX` matcher

The pattern is
`(?P<delim>(?P<block>WWW)|WW?)(?(block)(?:(?P<lang>[a-z]+)\n)?)(?:[ \t]*\n)*(?P<code>.*?)\s*(?P=delim)`
with `W` a backtick, compiled with `DOTALL | IGNORECASE`.  It is embedded as a
backtracking search that enumerates candidate parses in CPython's priority
order: delimiter alternatives left to right with the greedy `WW?`, the
optional language tag greedily, the blank-line loop greedily (most iterations
first), the code group lazily (shortest first) and `\s*` greedily. -/

/-- Length of the maximal whitespace run at position `i` (the `\s*` atom). -/
def wsRun (s : List Char) (i : Nat) : Nat :=
  ((s.drop i).takeWhile isPySpace).length

/-- Length of the maximal ASCII-letter run at position `i` (the `[a-z]+` atom
under `IGNORECASE`). -/
def letterRun (s : List Char) (i : Nat) : Nat :=
  ((s.drop i).takeWhile isAsciiLetter).length

/-- Whether the literal `d` occurs at position `i` (the back-reference
`(?P=delim)`). -/
def delimAt (s d : List Char) (i : Nat) : Bool := d.isPrefixOf (s.drop i)

/-- Scanner for the blank-line positions: `pos` is the position where the
current candidate blank line started and `run` the number of spaces/tabs
read within it. -/
def blankPositionsAux (pos run : Nat) : List Char → List Nat
  | [] => [pos]
  | c :: cs =>
    if isSp2 c then blankPositionsAux pos (run + 1) cs
    else if c = '\n' then pos :: blankPositionsAux (pos + run + 1) 0 cs
    else [pos]

/-- Positions reachable by 0, 1, 2, … iterations of `(?:[ \t]*\n)*` starting
at `i`, in increasing order.  Each iteration is forced: a maximal `[ \t]` run
must be followed by a newline. -/
def blankPositions (s : List Char) (i : Nat) : List Nat :=
  blankPositionsAux i 0 (s.drop i)

/-- All `(blank-line position, code length, whitespace length)` candidates for
the `(?:[ \t]*\n)*(?P<code>.*?)\s*(?P=delim)` tail starting at `start`, in
backtracking priority order. -/
def bodyCands (s : List Char) (start : Nat) : List (Nat × Nat × Nat) :=
  (blankPositions s start).reverse.flatMap fun p =>
    (List.range (s.length - p + 1)).flatMap fun c =>
      ((List.range (wsRun s (p + c) + 1)).reverse).map fun w => (p, c, w)

/-- A candidate closes the markup when the delimiter literal reappears after
the code and the whitespace. -/
def validClose (s d : List Char) (pcw : Nat × Nat × Nat) : Bool :=
  delimAt s d (pcw.1 + pcw.2.1 + pcw.2.2)

/-- First successful parse of the body, in priority order. -/
def searchBody (s d : List Char) (start : Nat) : Option (Nat × Nat × Nat) :=
  (bodyCands s start).find? (validClose s d)

/-- One match of `FORMATTED_CODE_REGEX`: the groups the source reads
(`block`, `lang`, `delim`, `code`) plus the end position used by `finditer`
to continue scanning. -/
structure FMatch where
  isBlock : Bool
  lang : Option (List Char)
  delim : List Char
  code : List Char
  stop : Nat
deriving DecidableEq, Repr

/-- Build the match for delimiter `d` whose body starts at `start`. -/
def mkMatch (s : List Char) (isB : Bool) (lg : Option (List Char))
    (d : List Char) (start : Nat) : Option FMatch :=
  (searchBody s d start).map fun pcw =>
    { isBlock := isB, lang := lg, delim := d,
      code := ((s.drop pcw.1).take pcw.2.1),
      stop := pcw.1 + pcw.2.1 + pcw.2.2 + d.length }

/-- The triple-backtick delimiter. -/
def delim3 : List Char := [bt, bt, bt]

/-- Match the block alternative at `i` (which must start with three
backticks): first with the greedy optional language tag, then without. -/
def matchBlockAt (s : List Char) (i : Nat) : Option FMatch :=
  let a := i + 3
  let r := letterRun s a
  let noLang := mkMatch s true none delim3 a
  if 0 < r ∧ charAt s (a + r) = some '\n' then
    (mkMatch s true (some ((s.drop a).take r)) delim3 (a + r + 1)) <|> noLang
  else noLang

/-- Attempt a match of the whole pattern at position `i`, following the
alternation order: `WWW` (block), then `WW`, then `W`. -/
def matchFormattedAt (s : List Char) (i : Nat) : Option FMatch :=
  if charAt s i = some bt then
    if charAt s (i + 1) = some bt then
      if charAt s (i + 2) = some bt then
        matchBlockAt s i <|> mkMatch s false none [bt, bt] (i + 2) <|>
          mkMatch s false none [bt] (i + 1)
      else
        mkMatch s false none [bt, bt] (i + 2) <|> mkMatch s false none [bt] (i + 1)
    else mkMatch s false none [bt] (i + 1)
  else none

/-- Scan for non-overlapping matches left to right, as `finditer`; `fuel`
bounds the number of scan steps (every match consumes at least two
characters, so `s.length + 1` steps always suffice). -/
def finditerGo (s : List Char) : Nat → Nat → List FMatch
  | _, 0 => []
  | i, fuel + 1 =>
    match matchFormattedAt s i with
    | some m => m :: finditerGo s m.stop fuel
    | none => if i < s.length then finditerGo s (i + 1) fuel else []

/-- All matches of `FORMATTED_CODE_REGEX`, as `list(.finditer(code))`. -/
def finditer (s : List Char) : List FMatch := finditerGo s 0 (s.length + 1)

/-! ### `textwrap.dedent` -/

/-- A line consisting solely of spaces/tabs (and nonempty): the lines CPython's
dedent normalises to empty via `_whitespace_only_re`. -/
def isBlankInd (l : List Char) : Bool := !l.isEmpty && l.all isSp2

/-- Normalise a whitespace-only line to the empty line. -/
def normLine (l : List Char) : List Char := if isBlankInd l then [] else l

/-- The `[ \t]*` indentation prefix of a line. -/
def indentOf (l : List Char) : List Char := l.takeWhile isSp2

/-- Longest common prefix of two lists (dedent's margin-merging loop). -/
def lcp2 : List Char → List Char → List Char
  | a :: as, b :: bs => if a = b then a :: lcp2 as bs else []
  | _, _ => []

/-- The common margin of the whitespace-normalised lines: the longest common
prefix of the indentations of the nonempty lines, or `none` when every line
is empty (dedent's `margin = None` case). -/
def marginOf (lines : List (List Char)) : Option (List Char) :=
  match (lines.filter (fun l => !l.isEmpty)).map indentOf with
  | [] => none
  | i0 :: rest => some (rest.foldl lcp2 i0)

/-- `textwrap.dedent`: normalise whitespace-only lines to empty, compute the
common margin of the remaining lines and strip it from every line that
starts with it. -/
def pyDedent (s : List Char) : List Char :=
  let lines := (splitNl s).map normLine
  match marginOf lines with
  | none => joinNl lines
  | some margin =>
    if margin.isEmpty then joinNl lines
    else joinNl (lines.map fun l =>
      if margin.isPrefixOf l then l.drop margin.length else l)

/-! ### `prepare_input` -/

/-- The selection logic of `prepare_input` on the match list: several fenced
blocks are concatenated; otherwise the sole fenced block, or the first match
overall, wins; with no match at all the raw-code fallback applies.  The
chosen code is always passed through `textwrap.dedent`. -/
def prepareInputL (s : List Char) : List Char :=
  match finditer s with
  | [] => pyDedent (rawCode s)
  | m0 :: rest =>
    match (m0 :: rest).filter (fun m => m.isBlock) with
    | [] => pyDedent m0.code
    | [b] => pyDedent b.code
    | b1 :: b2 :: bs =>
      pyDedent (joinNl ((b1 :: b2 :: bs).map (fun m => m.code)))

/-- `prepare_input`, the fallible transcription: `RAW_CODE_REGEX.fullmatch` is
an `Option` and its failure (`.group` on `None`) propagates. -/
def prepareInputO (s : List Char) : Option (List Char) :=
  match finditer s with
  | [] => (rawFullmatch s).map pyDedent
  | m0 :: rest =>
    match (m0 :: rest).filter (fun m => m.isBlock) with
    | [] => some (pyDedent m0.code)
    | [b] => some (pyDedent b.code)
    | b1 :: b2 :: bs =>
      some (pyDedent (joinNl ((b1 :: b2 :: bs).map (fun m => m.code))))

/-- `Snekbox.prepare_input` at the `str` level. -/
def prepare_input (code : String) : String := String.mk (prepareInputL code.toList)

/-! ### Output formatting

The paste service (`send_to_paste_service`) is an oracle
`paste : String → Option String`; `none` is an upload failure. -/

/-- `MAX_PASTE_LEN`. -/
def MAX_PASTE_LEN : Nat := 10000

/-- `upload_output`: refuse overlong uploads with a fixed marker string,
otherwise call the paste service. -/
def upload_output (paste : String → Option String) (output : String) :
    Option String :=
  if MAX_PASTE_LEN < output.length then some "too long to upload"
  else paste output

/-- The fixed warning body of the escape branch. -/
def escapeWarning : String :=
  "Code block escape attempt detected; will not output result"

/-- Mention neutralisation: insert a zero-width space after `<@` and then
after `<!@`, each guarded by a containment check as in the source. -/
def neutralize (l : List Char) : List Char :=
  let l1 := if hasSub ['<', '@'] l then listReplace '<' ['@'] ['<', '@', zwsp] l else l
  if hasSub ['<', '!', '@'] l1 then listReplace '<' ['!', '@'] ['<', '!', '@', zwsp] l1
  else l1

/-- Zero-padded 3-wide line number, Python's `f"{i:03d}"` for positive `i`. -/
def pad3 (i : Nat) : List Char :=
  if i < 10 then '0' :: '0' :: Nat.toDigits 10 i
  else if i < 100 then '0' :: Nat.toDigits 10 i
  else Nat.toDigits 10 i

/-- Prefix each line with its 1-based padded number, `f"{i:03d} | {line}"`. -/
def numberFrom (i : Nat) : List (List Char) → List (List Char)
  | [] => []
  | l :: ls => (pad3 i ++ [' ', '|', ' '] ++ l) :: numberFrom (i + 1) ls

/-- The rendered text before truncation: when the output spans more than one
line, number every line and keep only the first 11; otherwise leave it as
is. -/
def rendered (out2 : List Char) : List Char :=
  if 0 < out2.count '\n' then joinNl ((numberFrom 1 (splitNl out2)).take 11)
  else out2

/-- Marker appended when the output had too many lines and the numbered text
is also too long. -/
def mBoth : List Char := ("\n... (truncated - too long, too many lines)").toList

/-- Marker appended when the output had too many lines. -/
def mLines : List Char := ("\n... (truncated - too many lines)").toList

/-- Marker appended when the text alone is too long. -/
def mLong : List Char := ("\n... (truncated - too long)").toList

/-- The `[No output]` placeholder. -/
def noOutputBody : List Char := ("[No output]").toList

/-- The non-escape tail of `format_output`: truncation by line count and by
length, the paste upload on truncation, and the empty-body placeholder. -/
def formatNormal (paste : String → Option String) (out2 : List Char)
    (original : String) : String × Option String :=
  let lines := out2.count '\n'
  let out3 := rendered out2
  let bodyTrunc : List Char × Bool :=
    if 10 < lines then
      (if 1000 ≤ out3.length then out3.take 1000 ++ mBoth else out3 ++ mLines, true)
    else if 1000 ≤ out3.length then (out3.take 1000 ++ mLong, true)
    else (out3, false)
  let link := if bodyTrunc.2 then upload_output paste original else none
  (String.mk (if bodyTrunc.1.isEmpty then noOutputBody else bodyTrunc.1), link)

/-- `format_output`: strip trailing newlines, neutralise mentions, take the
escape branch when `ESCAPE_REGEX` matches, otherwise number/truncate. -/
def format_output (paste : String → Option String) (output : String) :
    String × Option String :=
  let out0 := rstripNl output.toList
  let original := String.mk out0
  let out2 := neutralize out0
  if hasEscapeRun out2 then (escapeWarning, upload_output paste original)
  else formatNormal paste out2 original

/-! ### `format_timeit_output` -/

/-- Strictly consume a nonempty ASCII-digit run. -/
def eatDigits (l : List Char) : Option (List Char) :=
  match l.takeWhile isAsciiDigit, l.dropWhile isAsciiDigit with
  | [], _ => none
  | _ :: _, rest => some rest

/-- Strictly consume a literal. -/
def eatLit (lit : List Char) (l : List Char) : Option (List Char) :=
  if lit.isPrefixOf l then some (l.drop lit.length) else none

/-- `TIMEIT_OUTPUT_REGEX.fullmatch`: the fixed pattern
`\d+ loops, best of \d+: \d(?:\.\d\d?)? [mnu]?sec per loop`.  The optional
fraction and unit groups are deterministic for this pattern. -/
def timeitMatch (l : List Char) : Bool :=
  (do
    let r1 ← eatDigits l
    let r2 ← eatLit (" loops, best of ").toList r1
    let r3 ← eatDigits r2
    let r4 ← eatLit (": ").toList r3
    let r5 ← match r4 with
      | d :: rest => if isAsciiDigit d then some rest else none
      | [] => none
    let r6 ← match r5 with
      | '.' :: d1 :: rest =>
        if isAsciiDigit d1 then
          match rest with
          | d2 :: rest2 => if isAsciiDigit d2 then some rest2 else some rest
          | [] => some rest
        else none
      | rest => some rest
    let r7 ← eatLit ([' ']) r6
    let r8 ← match r7 with
      | c :: rest => if c = 'm' || c = 'n' || c = 'u' then some rest else some r7
      | [] => some r7
    let r9 ← eatLit ("sec per loop").toList r8
    if r9.isEmpty then some () else none).isSome

/-- The segment after the last newline (the whole string when there is no
newline). -/
def lastSegment (l : List Char) : List Char :=
  (l.reverse.takeWhile (fun c => c ≠ '\n')).reverse

/-- `output.rstrip("\n").rsplit("\n", 1)`: `none` when the stripped output has
no newline, otherwise the parts before and after the last newline. -/
def rsplitNl1 (l : List Char) : Option (List Char × List Char) :=
  let suf := lastSegment l
  if suf.length = l.length then none
  else some (l.take (l.length - suf.length - 1), suf)

/-- `format_timeit_output`: return the last line alone when it is a timing
line, otherwise fall back to `format_output`. -/
def format_timeit_output (paste : String → Option String) (output : String) :
    String × Option String :=
  match rsplitNl1 (rstripNl output.toList) with
  | some (_, last) =>
    if timeitMatch last then (String.mk last, none)
    else format_output paste output
  | none => format_output paste output

/-! ### `get_status_emoji` -/

/-- The snekbox response: `{"stdout": ..., "returncode": ...}` with a
possibly-null return code. -/
structure EvalResults where
  stdout : String
  returncode : Option Int
deriving DecidableEq, Repr

/-- `get_status_emoji`: warning on blank stripped stdout, check mark on
return code 0, cross otherwise (`None == 0` is false in Python). -/
def get_status_emoji (results : EvalResults) : String :=
  if (pyStripAll results.stdout.toList).isEmpty then ":warning:"
  else if results.returncode = some 0 then ":white_check_mark:"
  else ":x:"

/-! ### The `run_eval` loop and the job registry

`self.jobs` is a Python dict keyed by user id; it is modelled as an
association list with dict semantics (update in place, delete, membership).
`send_eval` and `continue_eval` interact with the outside world; each loop
iteration's externally-determined outcome is an oracle `Round`: the clock
value stored in the registry, whether `send_eval` raises, and what
`continue_eval` returns (`none` for a timeout / vanished message, or
`some code` with `code` already passed through `prepare_input`). -/

/-- The job registry `self.jobs`: user id to start time. -/
def Registry := List (Nat × Nat)
deriving DecidableEq, Repr

/-- Dict membership `uid in self.jobs`. -/
def regMem (reg : Registry) (u : Nat) : Bool :=
  (List.any reg fun p => p.1 = u)

/-- Dict update `self.jobs[uid] = t`: replace in place or append. -/
def regSet (reg : Registry) (u t : Nat) : Registry :=
  match reg with
  | [] => [(u, t)]
  | p :: rest =>
    if p.1 = u then (u, t) :: rest else p :: regSet rest u t

/-- Dict deletion `del self.jobs[uid]`. -/
def regDel (reg : Registry) (u : Nat) : Registry :=
  (List.filter (fun p => !(p.1 = u : Bool)) reg)

/-- Number of registry entries held by user `u`. -/
def keyCount (reg : Registry) (u : Nat) : Nat :=
  (List.countP (fun p => (p.1 = u : Bool)) reg)

/-- Observable events of one `run_eval` call, in order.  `contEval` records
the registry as it stands when `continue_eval` is entered, together with the
value it returns. -/
inductive Ev where
  | notice
  | exec (code : String)
  | execFailed
  | contEval (reg : Registry) (result : Option String)
deriving DecidableEq, Repr

/-- Oracle for one iteration of the `while True` loop. -/
structure Round where
  time : Nat
  sendRaises : Bool
  contResult : Option String
deriving DecidableEq, Repr

/-- Default round used by `List.getD` in theorem statements. -/
def defaultRound : Round := { time := 0, sendRaises := false, contResult := none }

/-- The `while True` body of `run_eval`: insert the registry entry, run
`send_eval` (the `try`/`finally` deletes the entry whether it returns or
raises; a raise propagates), then ask `continue_eval` and loop while it
yields nonempty code.  The third component records whether the call raised. -/
def runLoop (uid : Nat) : String → Registry → List Round → Registry × List Ev × Bool
  | _, reg, [] => (reg, [], false)
  | code, reg, r :: rs =>
    let reg1 := regSet reg uid r.time
    if r.sendRaises then (regDel reg1 uid, [Ev.exec code, Ev.execFailed], true)
    else
      let reg2 := regDel reg1 uid
      match r.contResult with
      | none => (reg2, [Ev.exec code, Ev.contEval reg2 none], false)
      | some c =>
        if c = "" then (reg2, [Ev.exec code, Ev.contEval reg2 (some c)], false)
        else
          let rec3 := runLoop uid c reg2 rs
          (rec3.1, Ev.exec code :: Ev.contEval reg2 (some c) :: rec3.2.1, rec3.2.2)

/-- `run_eval`: reject with a notice when the user already has a job,
otherwise run the evaluation loop.  (The stats counters and log calls of the
source have no observable effect on the claims and are omitted.) -/
def run_eval (uid : Nat) (code : String) (reg : Registry) (rounds : List Round) :
    Registry × List Ev × Bool :=
  if regMem reg uid then (reg, [Ev.notice], false)
  else runLoop uid code reg rounds

/-- Number of execution requests (`post_eval` calls) in an event trace. -/
def execCount (evs : List Ev) : Nat :=
  (List.countP (fun e => match e with | Ev.exec _ => true | _ => false) evs)

/-- A `continue_eval` outcome that ends the loop: `None` or empty code
(`if not code: break`). -/
def isTermRes (o : Option String) : Bool :=
  match o with
  | none => true
  | some c => c = ""

/-! ### Derived notions used in theorem statements -/

/-- Whether a display body carries one of the three truncation markers. -/
def isTruncMarked (b : String) : Bool :=
  mBoth.isSuffixOf b.toList || mLines.isSuffixOf b.toList || mLong.isSuffixOf b.toList

/-- Whether the stripped output both contains a newline and has a timing
line as its last line — the guard of `format_timeit_output`'s first branch. -/
def lastLineTiming (l : List Char) : Bool :=
  match rsplitNl1 l with
  | some pr => timeitMatch pr.2
  | none => false

/-- Number of backticks in a string. -/
def backtickCount (l : List Char) : Nat := l.count bt

/-- A paste oracle that always succeeds, for concrete instances. -/
def pasteU : String → Option String := fun _ => some "url"

/-- Concrete input showing the mention-neutralisation pass can create an
escape run: two backticks preceded by a user-mention opener. -/
def mentionEscape : String := "<@" ++ String.mk [bt, bt]

/-- Concrete eleven-line output (newline count 10). -/
def elevenLines : String := "a\nb\nc\nd\ne\nf\ng\nh\ni\nj\nk"

/-- Concrete twelve-line output (newline count 11). -/
def twelveLines : String := "a\nb\nc\nd\ne\nf\ng\nh\ni\nj\nk\nl"

/-- Concrete single-line timing output longer than the display limit. -/
def longTiming : String :=
  String.mk (List.replicate 1000 '1' ++ (" loops, best of 1: 1 sec per loop").toList)

/-- Concrete two-fenced-blocks input whose blocks carry a common tab indent. -/
def twoIndentedBlocks : String :=
  String.mk ([bt, bt, bt, '\n', '\t', 'a', '\n', bt, bt, bt, ' ',
              bt, bt, bt, '\n', '\t', 'b', '\n', bt, bt, bt])

/-- Concrete two-fenced-blocks input with prose and an inline span between. -/
def twoPlainBlocks : String :=
  String.mk ([bt, bt, bt, '\n', 'x', '\n', bt, bt, bt] ++
             (" and ").toList ++ [bt, 'z', bt] ++ (" then ").toList ++
             [bt, bt, bt, '\n', 'y', '\n', bt, bt, bt])

/-! ## Claim C6 -/

/-- Claim C6 fails as stated: with an absent return code and blank stdout the
emoji is the warning sign, not the cross — the blank-output check runs
first. -/
theorem get_status_emoji_none_blank :
    get_status_emoji { stdout := "", returncode := none } = ":warning:" ∧
    get_status_emoji { stdout := "", returncode := none } ≠ ":x:" := by
  constructor
  · rfl
  · decide

/-- Claim C6 (amended): for an absent return code and for return code 255,
the emoji is the cross whenever the stripped stdout is nonempty, and the
warning sign when it is blank — blank output takes priority over the failure
codes. -/
theorem get_status_emoji_failure_codes (stdout : String) (rc : Option Int)
    (h : rc = none ∨ rc = some 255) :
    get_status_emoji { stdout := stdout, returncode := rc } =
      (if (pyStripAll stdout.toList).isEmpty then ":warning:" else ":x:") := by
  rcases h with h | h <;> subst h <;> unfold get_status_emoji <;>
    by_cases hb : (pyStripAll stdout.toList).isEmpty = true <;>
      simp [hb]

/-- Witness for C6's amended theorem at concrete inputs. -/
theorem get_status_emoji_failure_codes_inst :
    get_status_emoji { stdout := "boom", returncode := some 255 } = ":x:" ∧
    get_status_emoji { stdout := "oops", returncode := none } = ":x:" := by
  refine ⟨?_, ?_⟩
  · have h := get_status_emoji_failure_codes "boom" (some 255) (Or.inr rfl)
    rw [h]; decide
  · have h := get_status_emoji_failure_codes "oops" none (Or.inl rfl)
    rw [h]; decide

/-! ## Claim C1 -/

/-- Claim C1 fails as stated: the output `<@` followed by two backticks has
no three-character escape run after newline stripping, yet `format` takes
the escape branch, because the zero-width space inserted by mention
neutralisation completes a run of three. -/
theorem format_output_escape_from_mention :
    hasEscapeRun (rstripNl mentionEscape.toList) = false ∧
    format_output pasteU mentionEscape = (escapeWarning, some "url") := by
  constructor
  · decide
  · decide

/-- Claim C1 (amended): the escape branch is taken, returning the fixed
warning body and uploading the newline-stripped (not re-truncated, not
numbered) output, exactly when the *mention-neutralised* stripped output
contains three or more consecutive characters drawn from backtick, U+202E
and U+200B; otherwise formatting proceeds with the normal
numbering/truncation path. -/
theorem format_output_escape_branch (paste : String → Option String) (stdout : String) :
    (hasEscapeRun (neutralize (rstripNl stdout.toList)) = true →
      format_output paste stdout =
        (escapeWarning, upload_output paste (String.mk (rstripNl stdout.toList)))) ∧
    (hasEscapeRun (neutralize (rstripNl stdout.toList)) = false →
      format_output paste stdout =
        formatNormal paste (neutralize (rstripNl stdout.toList))
          (String.mk (rstripNl stdout.toList))) := by
  constructor <;> intro h <;> unfold format_output <;> simp only [h] <;> simp

/-- Witness for C1's amended theorem: a pure escape run takes the branch even
though the output would otherwise fit untruncated, and a clean output does
pass through to the normal path. -/
theorem format_output_escape_branch_inst :
    format_output pasteU (String.mk [zwsp, zwsp, zwsp]) = (escapeWarning, some "url") ∧
    format_output pasteU "tiny" = ("tiny", none) := by
  constructor
  · have h := (format_output_escape_branch pasteU (String.mk [zwsp, zwsp, zwsp])).1 (by decide)
    rw [h]; decide
  · have h := (format_output_escape_branch pasteU "tiny").2 (by decide)
    rw [h]; decide

/-! ## Claim C7 -/

set_option maxRecDepth 100000 in
/-- Claim C7 fails as stated: a single-line timing output longer than the
display limit matches the timing pattern as its own last line, yet the
result is the truncated general formatting with a paste link, because the
timing branch additionally requires the output to contain a newline. -/
theorem format_timeit_long_single_line :
    timeitMatch (lastSegment (rstripNl longTiming.toList)) = true ∧
    (format_timeit_output pasteU longTiming).2 = some "url" := by
  constructor
  · decide
  · decide

/-- Claim C7 (amended): when the newline-stripped output contains a newline
and its last line fully matches the fixed timing pattern, the timing line
alone is returned with no paste link; in every other case the result is
exactly that of the general `format` algorithm. -/
theorem format_timeit_branches (paste : String → Option String) (output : String) :
    (lastLineTiming (rstripNl output.toList) = true →
      format_timeit_output paste output =
        (String.mk (lastSegment (rstripNl output.toList)), none)) ∧
    (lastLineTiming (rstripNl output.toList) = false →
      format_timeit_output paste output = format_output paste output) := by
  constructor
  · intro h
    unfold lastLineTiming at h
    unfold format_timeit_output
    cases hr : rsplitNl1 (rstripNl output.toList) with
    | none => rw [hr] at h; cases h
    | some pr =>
      rw [hr] at h
      have hsnd : pr = (((rstripNl output.toList)).take
          ((rstripNl output.toList).length -
            (lastSegment (rstripNl output.toList)).length - 1),
          lastSegment (rstripNl output.toList)) := by
        unfold rsplitNl1 at hr
        by_cases hc :
            (lastSegment (rstripNl output.toList)).length = (rstripNl output.toList).length
        · rw [if_pos hc] at hr; cases hr
        · rw [if_neg hc] at hr
          injection hr with h2
          exact h2.symm
      subst hsnd
      dsimp only at h ⊢
      rw [h]
      simp
  · intro h
    unfold lastLineTiming at h
    unfold format_timeit_output
    cases hr : rsplitNl1 (rstripNl output.toList) with
    | none => rfl
    | some pr =>
      rw [hr] at h
      dsimp only at h ⊢
      rw [h]
      simp

/-- Witness for C7's amended theorem: a two-line output ending in a timing
line takes the timing branch; an error output falls back to `format`. -/
theorem format_timeit_branches_inst :
    format_timeit_output pasteU "x\n100 loops, best of 5: 3 usec per loop" =
      ("100 loops, best of 5: 3 usec per loop", none) ∧
    format_timeit_output pasteU "boom\nTraceback" = format_output pasteU "boom\nTraceback" := by
  constructor
  · have h := (format_timeit_branches pasteU "x\n100 loops, best of 5: 3 usec per loop").1
      (by decide)
    rw [h]; decide
  · exact (format_timeit_branches pasteU "boom\nTraceback").2 (by decide)

/-! ## Claim C9 -/

/-- A list whose `dropWhile` is empty satisfies the predicate everywhere. -/
theorem all_of_dropWhile_nil {p : Char → Bool} {l : List Char}
    (h : List.dropWhile p l = []) : l.all p = true := by
  induction l with
  | nil => rfl
  | cons c cs ih =>
    rw [List.dropWhile_cons] at h
    by_cases hc : p c = true
    · rw [if_pos hc] at h
      rw [List.all_cons, hc, ih h]
      rfl
    · rw [if_neg hc] at h
      cases h

/-- An all-whitespace string strips to nothing. -/
theorem rstripWs_of_all {l : List Char} (h : l.all isPySpace = true) :
    rstripWs l = [] := by
  unfold rstripWs
  have hd : l.reverse.dropWhile isPySpace = [] := by
    rw [List.dropWhile_eq_nil_iff]
    intro x hx
    exact List.all_eq_true.mp h x (List.mem_reverse.mp hx)
  rw [hd]
  rfl

/-- Whitespace stripping peels off a head character as long as something
other than whitespace remains. -/
theorem rstripWs_cons {c : Char} {cs : List Char}
    (h : ¬((c :: cs).all isPySpace = true)) :
    rstripWs (c :: cs) = c :: rstripWs cs := by
  unfold rstripWs
  have hrev : (c :: cs).reverse = cs.reverse ++ [c] := by simp
  rw [hrev, List.dropWhile_append]
  by_cases hcs : (cs.reverse.dropWhile isPySpace).isEmpty = true
  · have hnil : cs.reverse.dropWhile isPySpace = [] := by
      cases hh : cs.reverse.dropWhile isPySpace
      · rfl
      · rw [hh] at hcs; cases hcs
    have hcsall : cs.all isPySpace = true := by
      have := all_of_dropWhile_nil hnil
      rw [List.all_reverse] at this
      exact this
    have hcne : isPySpace c = false := by
      cases hcc : isPySpace c
      · rfl
      · exact absurd (by rw [List.all_cons, hcc, hcsall]; rfl) h
    rw [if_pos hcs, hnil]
    rw [List.dropWhile_cons, hcne]
    simp

  · rw [if_neg hcs]
    cases hd : cs.reverse.dropWhile isPySpace with
    | nil => rw [hd] at hcs; simp at hcs
    | cons d ds => simp

/-- Linking lemma: the lazy code search of `RAW_CODE_REGEX` always succeeds
and produces the remainder with its maximal whitespace suffix removed. -/
theorem findCodeAux_eq (rest : List Char) : ∀ acc,
    findCodeAux acc rest = some (acc.reverse ++ rstripWs rest) := by
  induction rest with
  | nil => intro acc; simp [findCodeAux, rstripWs]
  | cons c cs ih =>
    intro acc
    unfold findCodeAux
    by_cases hall : (c :: cs).all isPySpace = true
    · rw [if_pos hall, rstripWs_of_all hall, List.append_nil]
    · rw [if_neg hall, ih (c :: acc), rstripWs_cons hall]
      simp

/-- `RAW_CODE_REGEX.fullmatch` succeeds on every string and its code group is
the blank-prefix- and whitespace-suffix-stripped text. -/
theorem rawFullmatch_eq (l : List Char) : rawFullmatch l = some (rawCode l) := by
  unfold rawFullmatch rawCode
  rw [findCodeAux_eq (dropBlankLines l) []]
  rfl

/-- Claim C9: extraction is total — the fallible transcription of
`prepare_input` (with `RAW_CODE_REGEX.fullmatch` returning an `Option`)
never fails, and agrees with the total extraction function on every string,
including the empty string, whitespace-only strings and strings with
unbalanced backticks. -/
theorem prepare_input_total (s : String) :
    prepareInputO s.toList = some (prepare_input s).toList := by
  show prepareInputO s.toList = some (prepareInputL s.toList)
  unfold prepareInputO prepareInputL
  cases hf : finditer s.toList with
  | nil =>
    dsimp only
    rw [rawFullmatch_eq]
    rfl
  | cons m0 rest =>
    dsimp only
    cases hb : List.filter (fun m => m.isBlock) (m0 :: rest) with
    | nil => rfl
    | cons b1 bs => cases bs <;> rfl

/-! ## Claims C3, C4, C10: the `run_eval` loop -/

/-- Unfolding for `keyCount` over a cons cell. -/
theorem keyCount_cons (p : Nat × Nat) (rest : Registry) (v : Nat) :
    keyCount (p :: rest) v = (if p.1 = v then 1 else 0) + keyCount rest v := by
  by_cases hp : p.1 = v
  · simp [keyCount, List.countP_cons, hp]
    omega
  · simp [keyCount, List.countP_cons, hp]

/-- A dict update does not touch the entries of other users. -/
theorem regSet_keyCount_ne (reg : Registry) (u t v : Nat) (hvu : ¬v = u) :
    keyCount (regSet reg u t) v = keyCount reg v := by
  induction reg with
  | nil =>
    show keyCount [(u, t)] v = keyCount [] v
    rw [keyCount_cons]
    have : ¬(u = v) := fun hc => hvu hc.symm
    simp [this]
  | cons p rest ih =>
    unfold regSet
    by_cases hp : p.1 = u
    · rw [if_pos hp, keyCount_cons, keyCount_cons, hp]
    · rw [if_neg hp, keyCount_cons, keyCount_cons, ih]

/-- A dict update gives its own user exactly one entry more only when the
user was absent. -/
theorem regSet_keyCount_self (reg : Registry) (u t : Nat) :
    keyCount (regSet reg u t) u =
      (if regMem reg u then keyCount reg u else keyCount reg u + 1) := by
  induction reg with
  | nil =>
    show keyCount [(u, t)] u = _
    rw [keyCount_cons]
    simp [regMem, keyCount, List.countP, List.countP.go]
  | cons p rest ih =>
    unfold regSet
    by_cases hp : p.1 = u
    · rw [if_pos hp, keyCount_cons, keyCount_cons]
      have hm : regMem (p :: rest) u = true := by
        simp [regMem]
        exact Or.inl hp
      rw [hm]
      simp [hp]
    · rw [if_neg hp, keyCount_cons, keyCount_cons, ih]
      have hm : regMem (p :: rest) u = regMem rest u := by
        simp [regMem, hp]
      rw [hm, if_neg hp]
      by_cases hmem : regMem rest u = true <;> simp [hmem]

/-- An absent user has no entries. -/
theorem keyCount_of_not_mem (reg : Registry) (u : Nat)
    (h : regMem reg u = false) : keyCount reg u = 0 := by
  induction reg with
  | nil => rfl
  | cons p rest ih =>
    rw [regMem, List.any_cons, Bool.or_eq_false_iff] at h
    obtain ⟨h1, h2⟩ := h
    have hp : ¬(p.1 = u) := by simpa using h1
    rw [keyCount_cons, if_neg hp, ih h2]

/-- A dict deletion only removes entries. -/
theorem regDel_keyCount_le (reg : Registry) (u v : Nat) :
    keyCount (regDel reg u) v ≤ keyCount reg v :=
  List.Sublist.countP_le _ (List.filter_sublist reg)

/-- After a deletion the user is no longer registered. -/
theorem regDel_not_mem (reg : Registry) (u : Nat) :
    regMem (regDel reg u) u = false := by
  rw [regMem, regDel]
  simp [List.any_filter]

/-- The per-round update/delete pair preserves the one-entry bound. -/
theorem regSet_keyCount_le (reg : Registry) (u t v : Nat)
    (h : keyCount reg v ≤ 1) : keyCount (regSet reg u t) v ≤ 1 := by
  by_cases hvu : v = u
  · subst hvu
    rw [regSet_keyCount_self]
    by_cases hm : regMem reg v = true
    · simp [hm]; omega
    · have hm' : regMem reg v = false := by
        cases hmm : regMem reg v
        · rfl
        · exact absurd hmm hm
      rw [keyCount_of_not_mem reg v hm']
      simp [hm']
  · rw [regSet_keyCount_ne reg u t v hvu]
    exact h

/-- The loop preserves the at-most-one-entry-per-user invariant. -/
theorem runLoop_keyCount_le (uid : Nat) (rounds : List Round) :
    ∀ code reg, (∀ u, keyCount reg u ≤ 1) →
      ∀ u, keyCount (runLoop uid code reg rounds).1 u ≤ 1 := by
  induction rounds with
  | nil => intro code reg h u; exact h u
  | cons r rs ih =>
    intro code reg h u
    unfold runLoop
    have hset : ∀ v, keyCount (regSet reg uid r.time) v ≤ 1 :=
      fun v => regSet_keyCount_le reg uid r.time v (h v)
    have hdel : ∀ v, keyCount (regDel (regSet reg uid r.time) uid) v ≤ 1 :=
      fun v => le_trans (regDel_keyCount_le _ uid v) (hset v)
    by_cases hraise : r.sendRaises = true
    · simp only [hraise, if_true]
      exact hdel u
    · simp only [hraise, if_false, Bool.false_eq_true]
      cases hc : r.contResult with
      | none => exact hdel u
      | some c =>
        by_cases hce : c = ""
        · simp only [hce, if_true]
          exact hdel u
        · simp only [hce, if_false]
          exact ih c _ hdel u

/-- Claim C3: a submission from a user who already holds a registry entry is
rejected with the job-running notice, issues no execution request and leaves
the registry unchanged (in particular a sole entry stays a sole entry); and
`run_eval` never lets any user hold more than one entry. -/
theorem run_eval_busy (uid : Nat) (code : String) (reg : Registry)
    (rounds : List Round) :
    (regMem reg uid = true →
      run_eval uid code reg rounds = (reg, [Ev.notice], false) ∧
      (∀ c, Ev.exec c ∉ (run_eval uid code reg rounds).2.1) ∧
      keyCount (run_eval uid code reg rounds).1 uid = keyCount reg uid) ∧
    ((∀ u, keyCount reg u ≤ 1) →
      ∀ u, keyCount (run_eval uid code reg rounds).1 u ≤ 1) := by
  constructor
  · intro h
    unfold run_eval
    rw [h]
    refine ⟨rfl, ?_, rfl⟩
    intro c hc
    simp at hc
  · intro h u
    unfold run_eval
    by_cases hm : regMem reg uid = true
    · rw [hm]
      exact h u
    · have hm' : regMem reg uid = false := by
        cases hmm : regMem reg uid
        · rfl
        · exact absurd hmm hm
      rw [hm']
      simp only [Bool.false_eq_true, if_false]
      exact runLoop_keyCount_le uid rounds code reg h u

/-- Witness for C3 at a concrete busy registry. -/
theorem run_eval_busy_inst :
    run_eval 7 "print(1)" [(7, 3)] [defaultRound] = ([(7, 3)], [Ev.notice], false) ∧
    keyCount [(7, 3)] 7 = 1 := by
  have h := (run_eval_busy 7 "print(1)" [(7, 3)] [defaultRound]).1 (by decide)
  exact ⟨h.1, by decide⟩

/-- The loop removes the user's entry before every `continue_eval` call and
leaves no entry behind on either the normal or the raising path. -/
theorem runLoop_cleanup (uid : Nat) (rounds : List Round) :
    ∀ code reg, regMem reg uid = false →
      (∀ r res, Ev.contEval r res ∈ (runLoop uid code reg rounds).2.1 →
        regMem r uid = false) ∧
      regMem (runLoop uid code reg rounds).1 uid = false := by
  induction rounds with
  | nil =>
    intro code reg h
    exact ⟨fun r res hr => absurd hr (by simp [runLoop]), h⟩
  | cons r rs ih =>
    intro code reg h
    unfold runLoop
    by_cases hraise : r.sendRaises = true
    · simp only [hraise, if_true]
      refine ⟨?_, regDel_not_mem _ uid⟩
      intro r' res hr'
      simp at hr'
    · simp only [hraise, if_false, Bool.false_eq_true]
      cases hc : r.contResult with
      | none =>
        refine ⟨?_, regDel_not_mem _ uid⟩
        intro r' res hr'
        simp at hr'
        rw [hr'.1]
        exact regDel_not_mem _ uid
      | some c =>
        by_cases hce : c = ""
        · simp only [hce, if_true]
          refine ⟨?_, regDel_not_mem _ uid⟩
          intro r' res hr'
          simp at hr'
          rw [hr'.1]
          exact regDel_not_mem _ uid
        · simp only [hce, if_false]
          have hrec := ih c (regDel (regSet reg uid r.time) uid) (regDel_not_mem _ uid)
          refine ⟨?_, hrec.2⟩
          intro r' res hr'
          simp at hr'
          rcases hr' with hr' | hr'
          · rw [hr'.1]
            exact regDel_not_mem _ uid
          · exact hrec.1 r' res hr'

/-- Claim C4: once a submission is accepted, the registry entry inserted at
the start of each attempt is removed when the attempt completes — whether
`send_eval` returns or raises — and in particular the registry no longer
holds the user when `continue_eval` is entered, and no entry survives the
call, raising or not. -/
theorem run_eval_entry_cleanup (uid : Nat) (code : String) (reg : Registry)
    (rounds : List Round) (h : regMem reg uid = false) :
    (∀ r res, Ev.contEval r res ∈ (run_eval uid code reg rounds).2.1 →
      regMem r uid = false) ∧
    regMem (run_eval uid code reg rounds).1 uid = false := by
  unfold run_eval
  rw [h]
  simp only [Bool.false_eq_true, if_false]
  exact runLoop_cleanup uid rounds code reg h

/-- Witness for C4: a raising attempt followed by nothing still cleans up,
and the re-evaluation round's `continue_eval` sees an empty registry. -/
theorem run_eval_entry_cleanup_inst :
    regMem (run_eval 7 "x" []
      [{ time := 1, sendRaises := true, contResult := some "y" }]).1 7 = false ∧
    (∀ r res, Ev.contEval r res ∈ (run_eval 7 "x" []
      [{ time := 1, sendRaises := false, contResult := some "y" },
       { time := 2, sendRaises := false, contResult := none }]).2.1 →
      regMem r 7 = false) := by
  constructor
  · exact (run_eval_entry_cleanup 7 "x" []
      [{ time := 1, sendRaises := true, contResult := some "y" }] (by decide)).2
  · exact (run_eval_entry_cleanup 7 "x" []
      [{ time := 1, sendRaises := false, contResult := some "y" },
       { time := 2, sendRaises := false, contResult := none }] (by decide)).1

/-- Claim C10: if the first `k` rounds all complete normally with nonempty
re-evaluation code and round `k` completes normally but `continue_eval`
returns no code or empty code, the loop stops: exactly `k + 1` execution
requests are issued, and the call does not raise. -/
theorem run_eval_stops_on_empty (uid : Nat) (code : String) (reg : Registry)
    (rounds : List Round) (k : Nat)
    (hreg : regMem reg uid = false)
    (hk : k < rounds.length)
    (hgood : ∀ j, j < k → (rounds.getD j defaultRound).sendRaises = false ∧
      isTermRes (rounds.getD j defaultRound).contResult = false)
    (hterm : isTermRes (rounds.getD k defaultRound).contResult = true)
    (hnoraise : (rounds.getD k defaultRound).sendRaises = false) :
    execCount (run_eval uid code reg rounds).2.1 = k + 1 ∧
    (run_eval uid code reg rounds).2.2 = false := by
  unfold run_eval
  rw [hreg]
  simp only [Bool.false_eq_true, if_false]
  clear hreg
  induction rounds generalizing k code reg with
  | nil => cases hk
  | cons r rs ih =>
    cases k with
    | zero =>
      rw [List.getD_cons_zero] at hterm hnoraise
      unfold runLoop
      rw [hnoraise]
      simp only [Bool.false_eq_true, if_false]
      cases hc : r.contResult with
      | none =>
        refine ⟨?_, ?_⟩
        · simp [execCount, List.countP_cons]
        · trivial
      | some c =>
        rw [hc] at hterm
        have hce : c = "" := by simpa [isTermRes] using hterm
        simp only [hce, if_true]
        refine ⟨?_, ?_⟩
        · simp [execCount, List.countP_cons]
        · trivial
    | succ k' =>
      rw [List.getD_cons_succ] at hterm hnoraise
      have h0 := hgood 0 (Nat.succ_pos k')
      rw [List.getD_cons_zero] at h0
      unfold runLoop
      rw [h0.1]
      simp only [Bool.false_eq_true, if_false]
      cases hc : r.contResult with
      | none => rw [hc] at h0; simp [isTermRes] at h0
      | some c =>
        rw [hc] at h0
        have hce : ¬(c = "") := by
          intro hcc
          rw [hcc] at h0
          simp [isTermRes] at h0
        simp only [hce, if_false]
        have hrec := ih c (regDel (regSet reg uid r.time) uid) k'
          (Nat.lt_of_succ_lt_succ hk)
          (fun j hj => by
            have := hgood (j + 1) (Nat.succ_lt_succ hj)
            rwa [List.getD_cons_succ] at this)
          hterm hnoraise
        refine ⟨?_, hrec.2⟩
        have h1 := hrec.1
        simp [execCount, List.countP_cons] at h1 ⊢
        try omega

/-- Witness for C10: a single round returning empty edited code terminates
after one execution. -/
theorem run_eval_stops_on_empty_inst :
    execCount (run_eval 7 "x" []
      [{ time := 1, sendRaises := false, contResult := some "" },
       { time := 2, sendRaises := false, contResult := some "more" }]).2.1 = 1 := by
  exact (run_eval_stops_on_empty 7 "x" []
    [{ time := 1, sendRaises := false, contResult := some "" },
     { time := 2, sendRaises := false, contResult := some "more" }] 0
    (by decide) (by decide)
    (fun j hj => absurd hj (Nat.not_lt_zero j))
    (by decide) (by decide)).1

/-! ## Claim C2 -/

/-- A list is a prefix of itself extended on the right. -/
theorem isPrefixOf_append_self (p r : List Char) : p.isPrefixOf (p ++ r) = true := by
  induction p with
  | nil => simp [List.isPrefixOf]
  | cons c cs ih => simp [List.isPrefixOf]

/-- A list is a suffix of itself extended on the left. -/
theorem isSuffixOf_append_self (x m : List Char) : m.isSuffixOf (x ++ m) = true := by
  unfold List.isSuffixOf
  rw [List.reverse_append]
  exact isPrefixOf_append_self m.reverse x.reverse

/-- Appending a nonempty marker never yields the empty body. -/
theorem append_marker_isEmpty (x m : List Char) (hm : ¬(m = [])) :
    (x ++ m).isEmpty = false := by
  cases hx : x ++ m with
  | nil =>
    rcases List.append_eq_nil.mp hx with ⟨_, h2⟩
    exact absurd h2 hm
  | cons c cs => rfl

/-- A successful paste oracle makes `upload_output` succeed. -/
theorem upload_output_isSome (paste : String → Option String) (o : String)
    (hp : ∀ s, (paste s).isSome = true) :
    (upload_output paste o).isSome = true := by
  unfold upload_output
  by_cases hlen : MAX_PASTE_LEN < o.length
  · rw [if_pos hlen]; rfl
  · rw [if_neg hlen]; exact hp o

/-- Claim C2 fails as stated: an eleven-line output exceeds ten lines, yet it
is displayed in full (all eleven rows fit the eleven-row window), is not
marked truncated and carries no paste link — the source only truncates at
twelve or more lines. -/
theorem format_output_eleven_lines :
    10 < (splitNl elevenLines.toList).length ∧
    (format_output pasteU elevenLines).2 = none ∧
    isTruncMarked (format_output pasteU elevenLines).1 = false := by
  refine ⟨by decide, by decide, by decide⟩

/-- Claim C2 (amended): the display body never exceeds 1000 characters plus
one marker line; and — outside the escape branch — whenever the neutralised
newline-stripped output spans more than eleven lines (newline count over
ten) or its rendered (numbered, eleven-row-capped) text reaches 1000
characters, the body carries a truncation marker and the full stripped
output is uploaded: the link is present when the paste service succeeds,
and it is the fixed "too long to upload" string when the stripped output
exceeds the paste ceiling. -/
theorem format_output_bounds (paste : String → Option String) (stdout : String)
    (hp : ∀ s, (paste s).isSome = true) :
    (format_output paste stdout).1.length ≤ 1000 + mBoth.length ∧
    (hasEscapeRun (neutralize (rstripNl stdout.toList)) = false →
      (10 < (neutralize (rstripNl stdout.toList)).count '\n' ∨
        1000 ≤ (rendered (neutralize (rstripNl stdout.toList))).length) →
      ((format_output paste stdout).2.isSome = true ∧
        isTruncMarked (format_output paste stdout).1 = true ∧
        (MAX_PASTE_LEN < (rstripNl stdout.toList).length →
          (format_output paste stdout).2 = some "too long to upload"))) := by
  have hwarn : escapeWarning.length ≤ 1000 + mBoth.length := by decide
  have hmB : ¬(mBoth = []) := by decide
  have hmL : ¬(mLines = []) := by decide
  have hmG : ¬(mLong = []) := by decide
  cases hesc : hasEscapeRun (neutralize (rstripNl stdout.toList)) with
  | true =>
    have heq : format_output paste stdout =
        (escapeWarning, upload_output paste (String.mk (rstripNl stdout.toList))) := by
      unfold format_output
      simp only [hesc]
      simp
    rw [heq]
    exact ⟨hwarn, fun hc => by cases hc⟩
  | false =>
    have heq : format_output paste stdout =
        formatNormal paste (neutralize (rstripNl stdout.toList))
          (String.mk (rstripNl stdout.toList)) := by
      unfold format_output
      simp only [hesc]
      simp
    rw [heq]
    set out2 := neutralize (rstripNl stdout.toList) with hout2
    set original := String.mk (rstripNl stdout.toList) with horig
    have horiglen : original.length = (rstripNl stdout.toList).length := rfl
    unfold formatNormal
    by_cases h1 : 10 < out2.count '\n'
    · by_cases h2 : 1000 ≤ (rendered out2).length
      · simp only [h1, h2, if_true, if_pos]
        have hemp := append_marker_isEmpty ((rendered out2).take 1000) mBoth hmB
        simp only [hemp, Bool.false_eq_true, if_false]
        refine ⟨?_, fun _ _ => ⟨upload_output_isSome paste original hp, ?_, ?_⟩⟩
        · show ((rendered out2).take 1000 ++ mBoth).length ≤ 1000 + mBoth.length
          rw [List.length_append, List.length_take]
          have := Nat.min_le_left 1000 (rendered out2).length
          omega
        · show isTruncMarked (String.mk ((rendered out2).take 1000 ++ mBoth)) = true
          unfold isTruncMarked
          rw [show (String.mk ((rendered out2).take 1000 ++ mBoth)).toList =
            (rendered out2).take 1000 ++ mBoth from rfl]
          rw [isSuffixOf_append_self]
          rfl
        · intro hbig
          show upload_output paste original = some "too long to upload"
          unfold upload_output
          rw [if_pos (by rw [horiglen]; exact hbig)]
      · simp only [h1, h2, if_true, if_false]
        have hemp := append_marker_isEmpty (rendered out2) mLines hmL
        simp only [hemp, Bool.false_eq_true, if_false]
        refine ⟨?_, fun _ _ => ⟨upload_output_isSome paste original hp, ?_, ?_⟩⟩
        · show ((rendered out2) ++ mLines).length ≤ 1000 + mBoth.length
          rw [List.length_append]
          have hlt : (rendered out2).length ≤ 999 := by omega
          have : mLines.length ≤ mBoth.length := by decide
          omega
        · show isTruncMarked (String.mk ((rendered out2) ++ mLines)) = true
          unfold isTruncMarked
          rw [show (String.mk ((rendered out2) ++ mLines)).toList =
            (rendered out2) ++ mLines from rfl]
          rw [isSuffixOf_append_self]
          simp
        · intro hbig
          show upload_output paste original = some "too long to upload"
          unfold upload_output
          rw [if_pos (by rw [horiglen]; exact hbig)]
    · by_cases h2 : 1000 ≤ (rendered out2).length
      · simp only [h1, h2, if_true, if_false]
        have hemp := append_marker_isEmpty ((rendered out2).take 1000) mLong hmG
        simp only [hemp, Bool.false_eq_true, if_false]
        refine ⟨?_, fun _ _ => ⟨upload_output_isSome paste original hp, ?_, ?_⟩⟩
        · show ((rendered out2).take 1000 ++ mLong).length ≤ 1000 + mBoth.length
          rw [List.length_append, List.length_take]
          have := Nat.min_le_left 1000 (rendered out2).length
          have : mLong.length ≤ mBoth.length := by decide
          omega
        · show isTruncMarked (String.mk ((rendered out2).take 1000 ++ mLong)) = true
          unfold isTruncMarked
          rw [show (String.mk ((rendered out2).take 1000 ++ mLong)).toList =
            (rendered out2).take 1000 ++ mLong from rfl]
          rw [isSuffixOf_append_self]
          simp
        · intro hbig
          show upload_output paste original = some "too long to upload"
          unfold upload_output
          rw [if_pos (by rw [horiglen]; exact hbig)]
      · simp only [h1, h2, if_false]
        refine ⟨?_, ?_⟩
        · by_cases hemp : (rendered out2).isEmpty = true
          · simp only [hemp, if_true]
            decide
          · have hemp' : (rendered out2).isEmpty = false := by
              cases hee : (rendered out2).isEmpty
              · rfl
              · exact absurd hee hemp
            simp only [hemp', Bool.false_eq_true, if_false]
            show (rendered out2).length ≤ 1000 + mBoth.length
            omega
        · intro _ hover
          rcases hover with hover | hover <;> exact hover.elim

/-- Witness for C2's amended theorem at a twelve-line output. -/
theorem format_output_bounds_inst :
    (format_output pasteU twelveLines).1.length ≤ 1000 + mBoth.length ∧
    (format_output pasteU twelveLines).2.isSome = true ∧
    isTruncMarked (format_output pasteU twelveLines).1 = true := by
  have h := format_output_bounds pasteU twelveLines (fun s => rfl)
  have h2 := h.2 (by decide) (Or.inl (by decide))
  exact ⟨h.1, h2.1, h2.2.1⟩

/-! ## Claim C5 -/

/-- Claim C5 fails as stated: with two fenced blocks both indented by a tab,
the result is not the plain newline-joined block contents — the joined text
is additionally dedented. -/
theorem prepare_input_two_blocks_dedented :
    2 ≤ (List.filter (fun m => m.isBlock) (finditer twoIndentedBlocks.toList)).length ∧
    prepare_input twoIndentedBlocks ≠ String.mk (joinNl
      ((List.filter (fun m => m.isBlock)
        (finditer twoIndentedBlocks.toList)).map (fun m => m.code))) := by
  refine ⟨by decide, by decide⟩

/-- Claim C5 (amended): whenever the match list contains two or more fenced
blocks, `prepare_input` returns exactly the blocks' code contents joined by
single newlines — ignoring every inline match and all surrounding prose —
then dedented; the several-blocks policy takes precedence over the
first-match rule. -/
theorem prepare_input_joins_blocks (s : String)
    (h : 2 ≤ (List.filter (fun m => m.isBlock) (finditer s.toList)).length) :
    prepare_input s = String.mk (pyDedent (joinNl
      ((List.filter (fun m => m.isBlock) (finditer s.toList)).map
        (fun m => m.code)))) := by
  show String.mk (prepareInputL s.toList) = _
  unfold prepareInputL
  cases hf : finditer s.toList with
  | nil => rw [hf] at h; simp at h
  | cons m0 rest =>
    rw [hf] at h
    dsimp only
    cases hb : List.filter (fun m => m.isBlock) (m0 :: rest) with
    | nil => rw [hb] at h; simp at h
    | cons b1 bs =>
      cases bs with
      | nil => rw [hb] at h; simp at h
      | cons b2 bs2 => rfl

/-- Witness for C5's amended theorem: two fenced blocks with prose and an
inline span between are joined. -/
theorem prepare_input_joins_blocks_inst :
    2 ≤ (List.filter (fun m => m.isBlock) (finditer twoPlainBlocks.toList)).length ∧
    prepare_input twoPlainBlocks = "x\ny" := by
  refine ⟨by decide, ?_⟩
  have h := prepare_input_joins_blocks twoPlainBlocks (by decide)
  rw [h]
  decide

/-! ## Claim C8: engine lemmas

A match of `FORMATTED_CODE_REGEX` needs two backticks (the opening and the
closing delimiter), and two backticks always produce a match; so the
no-match condition of the raw-code fallback is equivalent to the string
holding at most one backtick.  These lemmas make that precise for the
embedded matcher. -/

/-- Past the end of the string there is no character. -/
theorem charAt_none_of_le (s : List Char) (j : Nat) (h : s.length ≤ j) :
    charAt s j = none := by
  unfold charAt
  rw [List.drop_eq_nil_of_le h]
  rfl

/-- A present character witnesses a position inside the string. -/
theorem lt_length_of_charAt (s : List Char) (j : Nat) (c : Char)
    (h : charAt s j = some c) : j < s.length := by
  by_contra hge
  rw [charAt_none_of_le s j (Nat.le_of_not_lt hge)] at h
  cases h

/-- A present character exposes the cons shape of the dropped suffix. -/
theorem drop_eq_cons_of_charAt (s : List Char) (j : Nat) (c : Char)
    (h : charAt s j = some c) : s.drop j = c :: s.drop (j + 1) := by
  unfold charAt at h
  cases hd : s.drop j with
  | nil => rw [hd] at h; cases h
  | cons c0 t =>
    rw [hd] at h
    have hc0 : c0 = c := by
      injection h
    subst hc0
    have ht : t = s.drop (j + 1) := by
      have h2 : (s.drop j).drop 1 = s.drop (j + 1) := List.drop_drop 1 j s
      rw [hd] at h2
      simpa using h2
    rw [ht]

/-- Beyond the string no match is attempted. -/
theorem matchFormattedAt_none_of_le (s : List Char) (j : Nat)
    (h : s.length ≤ j) : matchFormattedAt s j = none := by
  unfold matchFormattedAt
  rw [charAt_none_of_le s j h]
  simp

/-- If the scan returned nothing, no position in its fuel range matches. -/
theorem finditerGo_nil_none (s : List Char) :
    ∀ fuel i, finditerGo s i fuel = [] →
      ∀ j, i ≤ j → j < i + fuel → matchFormattedAt s j = none := by
  intro fuel
  induction fuel with
  | zero => intro i _ j hij hj; omega
  | succ f ih =>
    intro i hgo j hij hj
    unfold finditerGo at hgo
    cases hm : matchFormattedAt s i with
    | some m => rw [hm] at hgo; cases hgo
    | none =>
      rw [hm] at hgo
      by_cases hi : i < s.length
      · rw [if_pos hi] at hgo
        by_cases hji : j = i
        · rw [hji]; exact hm
        · exact ih (i + 1) hgo j (by omega) (by omega)
      · by_cases hji : j = i
        · rw [hji]; exact hm
        · exact matchFormattedAt_none_of_le s j (by omega)

/-- With no match found by `finditer`, no position matches at all. -/
theorem finditer_nil_none (s : List Char) (h : finditer s = []) :
    ∀ j, matchFormattedAt s j = none := by
  intro j
  by_cases hj : j < s.length + 1
  · exact finditerGo_nil_none s (s.length + 1) 0 h j (Nat.zero_le j) (by omega)
  · exact matchFormattedAt_none_of_le s j (by omega)

/-- A nonempty scan result exhibits a matching position. -/
theorem finditerGo_cons_exists (s : List Char) :
    ∀ fuel i m rest, finditerGo s i fuel = m :: rest →
      ∃ j, matchFormattedAt s j = some m := by
  intro fuel
  induction fuel with
  | zero => intro i m rest h; cases h
  | succ f ih =>
    intro i m rest h
    unfold finditerGo at h
    cases hm : matchFormattedAt s i with
    | some m0 =>
      rw [hm] at h
      injection h with h1 _
      exact ⟨i, h1 ▸ hm⟩
    | none =>
      rw [hm] at h
      by_cases hi : i < s.length
      · rw [if_pos hi] at h
        exact ih (i + 1) m rest h
      · rw [if_neg hi] at h; cases h

/-- Every blank-line position is at or after the line it started from. -/
theorem blankPositionsAux_le (l : List Char) :
    ∀ pos run x, x ∈ blankPositionsAux pos run l → pos ≤ x := by
  induction l with
  | nil =>
    intro pos run x hx
    simp [blankPositionsAux] at hx
    omega
  | cons c cs ih =>
    intro pos run x hx
    unfold blankPositionsAux at hx
    by_cases hc : isSp2 c = true
    · rw [if_pos hc] at hx
      exact ih pos (run + 1) x hx
    · rw [if_neg hc] at hx
      by_cases hn : c = '\n'
      · rw [if_pos hn] at hx
        rcases List.mem_cons.mp hx with hx | hx
        · omega
        · have := ih (pos + run + 1) 0 x hx
          omega
      · rw [if_neg hn] at hx
        simp at hx
        omega

/-- The zero-iterations position is always available. -/
theorem blankPositionsAux_self (l : List Char) :
    ∀ pos run, pos ∈ blankPositionsAux pos run l := by
  induction l with
  | nil => intro pos run; simp [blankPositionsAux]
  | cons c cs ih =>
    intro pos run
    unfold blankPositionsAux
    by_cases hc : isSp2 c = true
    · rw [if_pos hc]; exact ih pos (run + 1)
    · rw [if_neg hc]
      by_cases hn : c = '\n'
      · rw [if_pos hn]; exact List.mem_cons_self _ _
      · rw [if_neg hn]; exact List.mem_singleton.mpr rfl

/-- A successful body search closes on the delimiter at or after the body
start. -/
theorem searchBody_some_close (s d : List Char) (start : Nat) (pcw : Nat × Nat × Nat)
    (h : searchBody s d start = some pcw) :
    start ≤ pcw.1 + pcw.2.1 + pcw.2.2 ∧
      delimAt s d (pcw.1 + pcw.2.1 + pcw.2.2) = true := by
  unfold searchBody at h
  have hval := List.find?_some h
  have hmem := List.mem_of_find?_eq_some h
  unfold bodyCands at hmem
  rcases List.mem_flatMap.mp hmem with ⟨p, hp, hmem2⟩
  rcases List.mem_flatMap.mp hmem2 with ⟨c, _, hmem3⟩
  rcases List.mem_map.mp hmem3 with ⟨w, _, heq⟩
  have hple : start ≤ p :=
    blankPositionsAux_le (s.drop start) start 0 p (List.mem_reverse.mp hp)
  subst heq
  exact ⟨by omega, hval⟩

/-- A successful body search exists as soon as the closing delimiter occurs
anywhere at or after the start. -/
theorem searchBody_isSome (s d : List Char) (start j : Nat)
    (hj : delimAt s d j = true) (hstart : start ≤ j) (hlen : j < s.length) :
    (searchBody s d start).isSome = true := by
  unfold searchBody
  rw [List.find?_isSome]
  refine ⟨(start, j - start, 0), ?_, ?_⟩
  · unfold bodyCands
    rw [List.mem_flatMap]
    refine ⟨start, List.mem_reverse.mpr (blankPositionsAux_self (s.drop start) start 0), ?_⟩
    rw [List.mem_flatMap]
    refine ⟨j - start, List.mem_range.mpr (by omega), ?_⟩
    rw [List.mem_map]
    exact ⟨0, List.mem_reverse.mpr (List.mem_range.mpr (by omega)), rfl⟩
  · unfold validClose
    have : start + (j - start) + 0 = j := by omega
    rw [this]
    exact hj

/-- The single-backtick delimiter occurs exactly at the backticks. -/
theorem delimAt_single (s : List Char) (j : Nat) (c : Char) :
    delimAt s [c] j = true ↔ charAt s j = some c := by
  constructor
  · intro h
    unfold delimAt at h
    cases hd : s.drop j with
    | nil => rw [hd] at h; cases h
    | cons c0 t =>
      rw [hd] at h
      simp [List.isPrefixOf] at h
      unfold charAt
      rw [hd, h]
      rfl
  · intro h
    unfold delimAt
    rw [drop_eq_cons_of_charAt s j c h]
    simp [List.isPrefixOf]


/-- A delimiter headed by a backtick announces a backtick at its position. -/
theorem delimAt_head (s : List Char) (d0 : Char) (dr : List Char) (j : Nat)
    (h : delimAt s (d0 :: dr) j = true) : charAt s j = some d0 := by
  unfold delimAt at h
  cases hd : s.drop j with
  | nil => rw [hd] at h; cases h
  | cons c0 t =>
    rw [hd] at h
    simp [List.isPrefixOf] at h
    unfold charAt
    rw [hd, h.1]
    rfl

/-- Dissect an `orElse` success into one of its alternatives. -/
theorem orElse_eq_some {α : Type} (a b : Option α) (m : α)
    (h : (a <|> b) = some m) : a = some m ∨ b = some m := by
  cases a with
  | none => right; simpa using h
  | some x => left; simpa using h

/-- An `orElse` succeeds when its right alternative does. -/
theorem orElse_isSome_right {α : Type} (a b : Option α)
    (h : b.isSome = true) : (a <|> b).isSome = true := by
  cases a with
  | none => simpa using h
  | some x => simp

/-- A successful `mkMatch` closes on its delimiter at or after the body
start. -/
theorem mkMatch_some_close (s : List Char) (isB : Bool) (lg : Option (List Char))
    (d : List Char) (start : Nat) (m : FMatch)
    (h : mkMatch s isB lg d start = some m) :
    ∃ q, start ≤ q ∧ delimAt s d q = true := by
  unfold mkMatch at h
  cases hs : searchBody s d start with
  | none => rw [hs] at h; cases h
  | some pcw =>
    have := searchBody_some_close s d start pcw hs
    exact ⟨pcw.1 + pcw.2.1 + pcw.2.2, this.1, this.2⟩

/-- A match at `i` implies a backtick at `i` and a later backtick. -/
theorem matchFormattedAt_some_backticks (s : List Char) (i : Nat) (m : FMatch)
    (h : matchFormattedAt s i = some m) :
    charAt s i = some bt ∧ ∃ j, i < j ∧ charAt s j = some bt := by
  unfold matchFormattedAt at h
  by_cases h0 : charAt s i = some bt
  · refine ⟨h0, ?_⟩
    rw [if_pos h0] at h
    have hone : ∀ start, i < start →
        ∀ m', mkMatch s false none [bt] start = some m' →
          ∃ j, i < j ∧ charAt s j = some bt := by
      intro start hstart m' hm'
      rcases mkMatch_some_close s false none [bt] start m' hm' with ⟨q, hq1, hq2⟩
      exact ⟨q, by omega, (delimAt_single s q bt).mp hq2⟩
    have htwo : ∀ start, i < start →
        ∀ m', mkMatch s false none [bt, bt] start = some m' →
          ∃ j, i < j ∧ charAt s j = some bt := by
      intro start hstart m' hm'
      rcases mkMatch_some_close s false none [bt, bt] start m' hm' with ⟨q, hq1, hq2⟩
      exact ⟨q, by omega, delimAt_head s bt [bt] q hq2⟩
    have hblock : ∀ m', matchBlockAt s i = some m' →
        ∃ j, i < j ∧ charAt s j = some bt := by
      intro m' hm'
      unfold matchBlockAt at hm'
      by_cases hl : 0 < letterRun s (i + 3) ∧ charAt s (i + 3 + letterRun s (i + 3)) = some '\n'
      · rw [if_pos hl] at hm'
        rcases orElse_eq_some _ _ _ hm' with hcase | hcase
        · rcases mkMatch_some_close s true _ delim3 _ m' hcase with ⟨q, hq1, hq2⟩
          exact ⟨q, by omega, delimAt_head s bt [bt, bt] q hq2⟩
        · rcases mkMatch_some_close s true none delim3 (i + 3) m' hcase with ⟨q, hq1, hq2⟩
          exact ⟨q, by omega, delimAt_head s bt [bt, bt] q hq2⟩
      · rw [if_neg hl] at hm'
        rcases mkMatch_some_close s true none delim3 (i + 3) m' hm' with ⟨q, hq1, hq2⟩
        exact ⟨q, by omega, delimAt_head s bt [bt, bt] q hq2⟩
    by_cases h1 : charAt s (i + 1) = some bt
    · rw [if_pos h1] at h
      by_cases h2 : charAt s (i + 2) = some bt
      · rw [if_pos h2] at h
        rcases orElse_eq_some _ _ _ h with hcase | hcase
        · exact hblock m hcase
        · rcases orElse_eq_some _ _ _ hcase with hcase2 | hcase2
          · exact htwo (i + 2) (by omega) m hcase2
          · exact hone (i + 1) (by omega) m hcase2
      · rw [if_neg h2] at h
        rcases orElse_eq_some _ _ _ h with hcase | hcase
        · exact htwo (i + 2) (by omega) m hcase
        · exact hone (i + 1) (by omega) m hcase
    · rw [if_neg h1] at h
      exact hone (i + 1) (by omega) m h
  · rw [if_neg h0] at h
    cases h

/-- Two backticks with the first one at `i` always give a match at `i`:
whatever the block and double-backtick alternatives do, the single-backtick
alternative closes on the later backtick. -/
theorem matchFormattedAt_isSome (s : List Char) (i j : Nat)
    (hi : charAt s i = some bt) (hj : charAt s j = some bt) (hij : i < j) :
    (matchFormattedAt s i).isSome = true := by
  have hjlen : j < s.length := lt_length_of_charAt s j bt hj
  have hone : (mkMatch s false none [bt] (i + 1)).isSome = true := by
    have hsome := searchBody_isSome s [bt] (i + 1) j ((delimAt_single s j bt).mpr hj)
      (by omega) hjlen
    unfold mkMatch
    cases hs : searchBody s [bt] (i + 1) with
    | none => rw [hs] at hsome; cases hsome
    | some pcw => rfl
  unfold matchFormattedAt
  rw [if_pos hi]
  by_cases h1 : charAt s (i + 1) = some bt
  · rw [if_pos h1]
    by_cases h2 : charAt s (i + 2) = some bt
    · rw [if_pos h2]
      exact orElse_isSome_right _ _ (orElse_isSome_right _ _ hone)
    · rw [if_neg h2]
      exact orElse_isSome_right _ _ hone
  · rw [if_neg h1]
    exact hone

/-! ### Backtick counting -/

/-- A visible character contributes to the count. -/
theorem count_pos_of_charAt (l : List Char) (k : Nat) (c : Char)
    (h : charAt l k = some c) : 1 ≤ l.count c := by
  have hd := drop_eq_cons_of_charAt l k c h
  have hsub : (l.drop k).count c ≤ l.count c :=
    (List.drop_sublist k l).count_le c
  rw [hd] at hsub
  rw [List.count_cons_self] at hsub
  omega

/-- Two visible characters at distinct positions contribute twice. -/
theorem count_two_of_charAt (l : List Char) (i j : Nat) (c : Char)
    (hi : charAt l i = some c) (hj : charAt l j = some c) (hij : i < j) :
    2 ≤ l.count c := by
  have hd := drop_eq_cons_of_charAt l i c hi
  have hsub : (l.drop i).count c ≤ l.count c :=
    (List.drop_sublist i l).count_le c
  have hj' : charAt (l.drop (i + 1)) (j - (i + 1)) = some c := by
    unfold charAt
    rw [List.drop_drop]
    have : i + 1 + (j - (i + 1)) = j := by omega
    rw [this]
    exact hj
  have h1 := count_pos_of_charAt (l.drop (i + 1)) (j - (i + 1)) c hj'
  rw [hd, List.count_cons_self] at hsub
  omega

/-- Conversely, a double count yields two distinct positions. -/
theorem charAt_two_of_count (l : List Char) (c : Char) (h : 2 ≤ l.count c) :
    ∃ i j, i < j ∧ charAt l i = some c ∧ charAt l j = some c := by
  induction l with
  | nil => simp [List.count] at h
  | cons a t ih =>
    by_cases hac : a = c
    · subst hac
      rw [List.count_cons_self] at h
      have h1 : 1 ≤ t.count a := by omega
      have hex : ∃ k, charAt t k = some a := by
        clear h ih
        induction t with
        | nil => simp [List.count] at h1
        | cons b u ihu =>
          by_cases hba : b = a
          · exact ⟨0, by rw [hba]; rfl⟩
          · have : u.count a = (b :: u).count a := by
              rw [List.count_cons]
              simp [hba]
            rcases ihu (by omega) with ⟨k, hk⟩
            exact ⟨k + 1, hk⟩
      rcases hex with ⟨k, hk⟩
      exact ⟨0, k + 1, by omega, rfl, hk⟩
    · have : t.count c = (a :: t).count c := by
        rw [List.count_cons]
        simp [hac]
      rcases ih (by omega) with ⟨i, j, hij, hi, hj⟩
      exact ⟨i + 1, j + 1, by omega, hi, hj⟩

/-- If `finditer` finds nothing the string has at most one backtick. -/
theorem count_le_one_of_finditer_nil (s : List Char) (h : finditer s = []) :
    s.count bt ≤ 1 := by
  by_contra hcount
  rcases charAt_two_of_count s bt (by omega) with ⟨i, j, hij, hi, hj⟩
  have := matchFormattedAt_isSome s i j hi hj hij
  rw [finditer_nil_none s h i] at this
  cases this

/-- If the string has at most one backtick, `finditer` finds nothing. -/
theorem finditer_nil_of_count_le_one (s : List Char) (h : s.count bt ≤ 1) :
    finditer s = [] := by
  cases hf : finditer s with
  | nil => rfl
  | cons m rest =>
    rcases finditerGo_cons_exists s (s.length + 1) 0 m rest hf with ⟨j, hj⟩
    rcases matchFormattedAt_some_backticks s j m hj with ⟨h1, k, hk1, hk2⟩
    have := count_two_of_charAt s j k bt h1 hk2 hk1
    omega

/-! ### Lines: `splitNl` and `joinNl` -/

/-- Splitting never yields an empty list of lines. -/
theorem splitNl_ne_nil (z : List Char) : ¬(splitNl z = []) := by
  cases z with
  | nil => simp [splitNl]
  | cons c rest =>
    unfold splitNl
    by_cases hc : c = '\n'
    · simp [hc]
    · rw [if_neg hc]
      cases splitNl rest <;> simp

/-- Joining the split lines restores the string. -/
theorem joinNl_splitNl (z : List Char) : joinNl (splitNl z) = z := by
  induction z with
  | nil => rfl
  | cons c rest ih =>
    unfold splitNl
    by_cases hc : c = '\n'
    · rw [if_pos hc]
      cases hs : splitNl rest with
      | nil => exact absurd hs (splitNl_ne_nil rest)
      | cons l ls =>
        show joinNl ([] :: l :: ls) = c :: rest
        unfold joinNl
        rw [hs] at ih
        rw [hc]
        simpa using ih
    · rw [if_neg hc]
      cases hs : splitNl rest with
      | nil => exact absurd hs (splitNl_ne_nil rest)
      | cons l ls =>
        rw [hs] at ih
        cases ls with
        | nil =>
          show joinNl [c :: l] = c :: rest
          unfold joinNl
          unfold joinNl at ih
          rw [ih]
        | cons l2 ls2 =>
          show joinNl ((c :: l) :: l2 :: ls2) = c :: rest
          unfold joinNl
          rw [show joinNl (l :: l2 :: ls2) = l ++ '\n' :: joinNl (l2 :: ls2) from rfl] at ih
          simpa using ih

/-- Lines contain no newline. -/
theorem splitNl_mem_no_nl (z : List Char) :
    ∀ l, l ∈ splitNl z → ¬('\n' ∈ l) := by
  induction z with
  | nil =>
    intro l hl
    simp [splitNl] at hl
    simp [hl]
  | cons c rest ih =>
    intro l hl
    unfold splitNl at hl
    by_cases hc : c = '\n'
    · rw [if_pos hc] at hl
      rcases List.mem_cons.mp hl with hl | hl
      · simp [hl]
      · exact ih l hl
    · rw [if_neg hc] at hl
      cases hs : splitNl rest with
      | nil => exact absurd hs (splitNl_ne_nil rest)
      | cons l0 ls =>
        rw [hs] at hl
        rcases List.mem_cons.mp hl with hl | hl
        · subst hl
          intro hmem
          rcases List.mem_cons.mp hmem with hmem | hmem
          · exact hc hmem.symm
          · exact ih l0 (hs ▸ List.mem_cons_self l0 ls) hmem
        · exact ih l (hs ▸ List.mem_cons_of_mem l0 hl)

/-- A newline-free string is its own single line. -/
theorem splitNl_no_nl (l : List Char) (h : ¬('\n' ∈ l)) : splitNl l = [l] := by
  induction l with
  | nil => rfl
  | cons c rest ih =>
    unfold splitNl
    have hc : ¬(c = '\n') := fun hcc => h (hcc ▸ List.mem_cons_self c rest)
    rw [if_neg hc, ih (fun hm => h (List.mem_cons_of_mem c hm))]

/-- Splitting after a leading newline-free line peels it off. -/
theorem splitNl_append_nl (l X : List Char) (h : ¬('\n' ∈ l)) :
    splitNl (l ++ '\n' :: X) = l :: splitNl X := by
  induction l with
  | nil => simp [splitNl]
  | cons c rest ih =>
    have hc : ¬(c = '\n') := fun hcc => h (hcc ▸ List.mem_cons_self c rest)
    show splitNl (c :: (rest ++ '\n' :: X)) = (c :: rest) :: splitNl X
    conv_lhs => unfold splitNl
    rw [if_neg hc, ih (fun hm => h (List.mem_cons_of_mem c hm))]

/-- Splitting a join of newline-free lines restores the lines. -/
theorem splitNl_joinNl (ls : List (List Char)) :
    ¬(ls = []) → (∀ l ∈ ls, ¬('\n' ∈ l)) → splitNl (joinNl ls) = ls := by
  induction ls with
  | nil => intro h _; exact absurd rfl h
  | cons l ls2 ih =>
    intro _ hnl
    cases ls2 with
    | nil =>
      show splitNl (joinNl [l]) = [l]
      unfold joinNl
      exact splitNl_no_nl l (hnl l (List.mem_cons_self l []))
    | cons l2 ls3 =>
      show splitNl (joinNl (l :: l2 :: ls3)) = l :: l2 :: ls3
      unfold joinNl
      rw [splitNl_append_nl l _ (hnl l (List.mem_cons_self l _))]
      rw [ih (by simp) (fun x hx => hnl x (List.mem_cons_of_mem l hx))]

/-- Counting a non-newline character distributes over the joined lines. -/
theorem count_joinNl (c : Char) (hc : ¬(c = '\n')) :
    ∀ ls : List (List Char),
      (joinNl ls).count c = (ls.map (fun l => l.count c)).sum := by
  intro ls
  induction ls with
  | nil => rfl
  | cons l ls2 ih =>
    cases ls2 with
    | nil =>
      show l.count c = ([l].map (fun l => l.count c)).sum
      simp
    | cons l2 ls3 =>
      show (l ++ '\n' :: joinNl (l2 :: ls3)).count c = _
      rw [List.count_append, List.count_cons, ih]
      have hnc : ¬('\n' = c) := fun h => hc h.symm
      simp [hnc]

/-! ### Count monotonicity of the extraction pipeline -/

/-- Whitespace stripping does not add characters. -/
theorem count_rstripWs_le (z : List Char) (c : Char) :
    (rstripWs z).count c ≤ z.count c := by
  unfold rstripWs
  rw [List.count_reverse]
  calc (z.reverse.dropWhile isPySpace).count c
      ≤ z.reverse.count c := (List.dropWhile_sublist isPySpace).count_le c
    _ = z.count c := List.count_reverse c z

/-- The blank-line scanner does not add characters. -/
theorem count_dropBlankLinesGo_le (c : Char) :
    ∀ (l pending : List Char),
      (dropBlankLinesGo pending l).count c ≤ pending.count c + l.count c := by
  intro l
  induction l with
  | nil =>
    intro pending
    unfold dropBlankLinesGo
    rw [List.count_reverse]
    simp [List.count]
  | cons c0 cs ih =>
    intro pending
    unfold dropBlankLinesGo
    by_cases h0 : isSp2 c0 = true
    · rw [if_pos h0]
      calc (dropBlankLinesGo (c0 :: pending) cs).count c
          ≤ (c0 :: pending).count c + cs.count c := ih (c0 :: pending)
        _ = pending.count c + (c0 :: cs).count c := by
            rw [List.count_cons, List.count_cons]
            omega
    · rw [if_neg h0]
      by_cases hn : c0 = '\n'
      · rw [if_pos hn]
        calc (dropBlankLinesGo [] cs).count c
            ≤ ([] : List Char).count c + cs.count c := ih []
          _ ≤ pending.count c + (c0 :: cs).count c := by
              rw [List.count_cons]
              simp [List.count]
              omega
      · rw [if_neg hn]
        rw [List.count_append, List.count_reverse]

/-- The raw-code extraction does not add characters. -/
theorem count_rawCode_le (z : List Char) (c : Char) :
    (rawCode z).count c ≤ z.count c := by
  unfold rawCode dropBlankLines
  calc (rstripWs (dropBlankLinesGo [] z)).count c
      ≤ (dropBlankLinesGo [] z).count c := count_rstripWs_le _ c
    _ ≤ ([] : List Char).count c + z.count c := count_dropBlankLinesGo_le c z []
    _ = z.count c := by simp [List.count]

/-- Dedenting does not add characters. -/
theorem count_pyDedent_le (z : List Char) (c : Char) (hc : ¬(c = '\n')) :
    (pyDedent z).count c ≤ z.count c := by
  have hle : ∀ (F : List Char → List Char),
      (∀ l, (F l).count c ≤ l.count c) →
      (joinNl ((splitNl z).map F)).count c ≤ z.count c := by
    intro F hF
    rw [count_joinNl c hc, List.map_map]
    calc ((splitNl z).map (fun l => (F l).count c)).sum
        ≤ ((splitNl z).map (fun l => l.count c)).sum :=
          List.sum_le_sum (fun l _ => hF l)
      _ = (joinNl (splitNl z)).count c := (count_joinNl c hc (splitNl z)).symm
      _ = z.count c := by rw [joinNl_splitNl]
  have hnorm : ∀ l : List Char, (normLine l).count c ≤ l.count c := by
    intro l
    unfold normLine
    by_cases hb : isBlankInd l = true
    · rw [if_pos hb]; simp [List.count]
    · rw [if_neg hb]
  unfold pyDedent
  dsimp only
  cases hm : marginOf ((splitNl z).map normLine) with
  | none =>
    dsimp only
    exact hle normLine hnorm
  | some margin =>
    dsimp only
    by_cases hme : margin.isEmpty = true
    · rw [if_pos hme]
      exact hle normLine hnorm
    · rw [if_neg hme, List.map_map]
      refine hle _ ?_
      intro l
      show (if margin.isPrefixOf (normLine l) = true
          then (normLine l).drop margin.length else normLine l).count c ≤ l.count c
      by_cases hp : margin.isPrefixOf (normLine l) = true
      · rw [if_pos hp]
        exact le_trans ((List.drop_sublist margin.length (normLine l)).count_le c) (hnorm l)
      · rw [if_neg hp]
        exact hnorm l

/-! ### Fixed points of the raw-code strip -/

/-- Spaces and tabs are Python whitespace. -/
theorem isPySpace_of_isSp2 (c : Char) (h : isSp2 c = true) :
    isPySpace c = true := by
  unfold isSp2 at h
  rcases Bool.or_eq_true_iff.mp h with h | h
  · have : c = ' ' := by simpa using h
    rw [this]; decide
  · have : c = '\t' := by simpa using h
    rw [this]; decide

/-- `takeWhile` stops exactly at the first failing character. -/
theorem takeWhile_append_stop (p : Char → Bool) (A : List Char) (d : Char)
    (r : List Char) (hA : A.all p = true) (hd : p d = false) :
    (A ++ d :: r).takeWhile p = A := by
  induction A with
  | nil => simp [List.takeWhile_cons, hd]
  | cons a A' ih =>
    rw [List.all_cons] at hA
    rcases Bool.and_eq_true_iff.mp hA with ⟨ha, hA'⟩
    show ((a :: (A' ++ d :: r)).takeWhile p) = a :: A'
    rw [List.takeWhile_cons, ha]
    simp [ih hA']

/-- The character right after a prefix block. -/
theorem charAt_append (A : List Char) (d : Char) (r : List Char) :
    charAt (A ++ d :: r) A.length = some d := by
  unfold charAt
  rw [List.drop_left]
  rfl

/-- Head of a `dropWhile` fails the predicate. -/
theorem dropWhile_head_false (p : Char → Bool) (v : List Char) (d : Char)
    (ds : List Char) (h : v.dropWhile p = d :: ds) : p d = false := by
  induction v with
  | nil => cases h
  | cons a as ih =>
    rw [List.dropWhile_cons] at h
    by_cases hp : p a = true
    · rw [if_pos hp] at h
      exact ih h
    · rw [if_neg hp] at h
      injection h with h1 _
      rw [← h1]
      cases hq : p a
      · rfl
      · exact absurd hq hp

/-- The blank-line scanner leaves no blank line at the head of its result. -/
theorem dropBlankLinesGo_post (l : List Char) :
    ∀ pending, pending.all isSp2 = true →
      ¬(charAt (dropBlankLinesGo pending l)
          (((dropBlankLinesGo pending l).takeWhile isSp2).length) = some '\n') := by
  induction l with
  | nil =>
    intro pending hp
    unfold dropBlankLinesGo
    have hall : pending.reverse.all isSp2 = true := by
      rw [List.all_reverse]; exact hp
    have : pending.reverse.takeWhile isSp2 = pending.reverse :=
      List.takeWhile_eq_self_iff.mpr (List.all_eq_true.mp hall)
    rw [this, charAt_none_of_le _ _ (le_refl _)]
    simp
  | cons c cs ih =>
    intro pending hp
    unfold dropBlankLinesGo
    by_cases hc : isSp2 c = true
    · rw [if_pos hc]
      exact ih (c :: pending) (by rw [List.all_cons, hc, hp]; rfl)
    · rw [if_neg hc]
      by_cases hn : c = '\n'
      · rw [if_pos hn]
        exact ih [] rfl
      · rw [if_neg hn]
        have hcf : isSp2 c = false := by
          cases hq : isSp2 c
          · rfl
          · exact absurd hq hc
        have hall : pending.reverse.all isSp2 = true := by
          rw [List.all_reverse]; exact hp
        rw [takeWhile_append_stop isSp2 pending.reverse c cs hall hcf]
        rw [charAt_append]
        intro hcontra
        injection hcontra with h1
        exact hn h1

/-- The raw-code result extends to the pre-strip string by whitespace. -/
theorem rstripWs_decomp (z : List Char) :
    ∃ t, t.all isPySpace = true ∧ z = rstripWs z ++ t := by
  refine ⟨(z.reverse.takeWhile isPySpace).reverse, ?_, ?_⟩
  · rw [List.all_reverse]
    rw [List.all_eq_true]
    intro x hx
    exact List.mem_takeWhile_imp hx
  · unfold rstripWs
    rw [← List.reverse_append, List.takeWhile_append_dropWhile, List.reverse_reverse]

/-- The raw-code result either is empty or ends in non-whitespace. -/
theorem rstripWs_last (z : List Char) :
    rstripWs z = [] ∨
      ∃ A c, rstripWs z = A ++ [c] ∧ isPySpace c = false := by
  unfold rstripWs
  cases hd : z.reverse.dropWhile isPySpace with
  | nil => left; rfl
  | cons d ds =>
    right
    refine ⟨ds.reverse, d, ?_, dropWhile_head_false isPySpace z.reverse d ds hd⟩
    simp

/-- Strings ending in non-whitespace are fixed by the whitespace strip. -/
theorem rstripWs_fix (z : List Char) (c : Char) (hz : z.getLast? = some c)
    (hc : isPySpace c = false) : rstripWs z = z := by
  unfold rstripWs
  rw [List.getLast?_eq_head?_reverse] at hz
  cases hr : z.reverse with
  | nil => rw [hr] at hz; cases hz
  | cons d ds =>
    rw [hr] at hz
    have hd : d = c := by injection hz
    subst hd
    rw [List.dropWhile_cons, hc]
    simp only [Bool.false_eq_true, if_false]
    rw [← hr, List.reverse_reverse]

/-- The blank-line scanner walks over an all-blank segment ending at a
non-blank, non-newline character without changing anything. -/
theorem dropBlankLinesGo_stop (S : List Char) :
    ∀ pending d rest, S.all isSp2 = true → isSp2 d = false → ¬(d = '\n') →
      dropBlankLinesGo pending (S ++ d :: rest) =
        pending.reverse ++ S ++ d :: rest := by
  induction S with
  | nil =>
    intro pending d rest _ hd hn
    show dropBlankLinesGo pending (d :: rest) = _
    unfold dropBlankLinesGo
    rw [hd]
    simp only [Bool.false_eq_true, if_false, if_neg hn]
    simp
  | cons a S' ih =>
    intro pending d rest hS hd hn
    rw [List.all_cons] at hS
    rcases Bool.and_eq_true_iff.mp hS with ⟨ha, hS'⟩
    show dropBlankLinesGo pending (a :: (S' ++ d :: rest)) = _
    unfold dropBlankLinesGo
    rw [if_pos ha]
    rw [ih (a :: pending) d rest hS' hd hn]
    simp

/-- A string whose first line contains a non-blank character is fixed by the
blank-line strip. -/
theorem dropBlankLines_fix (z : List Char)
    (hcont : (z.takeWhile (fun c => !(c == '\n'))).any (fun c => !isSp2 c) = true) :
    dropBlankLines z = z := by
  cases hR : z.dropWhile isSp2 with
  | nil =>
    exfalso
    have hall : z.all isSp2 = true := by
      rw [List.all_eq_true]
      exact List.dropWhile_eq_nil_iff.mp hR
    rcases List.any_eq_true.mp hcont with ⟨x, hx, hnx⟩
    have hxz : x ∈ z := (List.takeWhile_sublist _).subset hx
    have := List.all_eq_true.mp hall x hxz
    rw [this] at hnx
    cases hnx
  | cons d rest =>
    have hz : z = z.takeWhile isSp2 ++ d :: rest := by
      conv_lhs => rw [← List.takeWhile_append_dropWhile (p := isSp2) (l := z)]
      rw [hR]
    have hd : isSp2 d = false := dropWhile_head_false isSp2 z d rest hR
    have hS : (z.takeWhile isSp2).all isSp2 = true := by
      rw [List.all_eq_true]
      intro x hx
      exact List.mem_takeWhile_imp hx
    by_cases hn : d = '\n'
    · exfalso
      have hSP : (z.takeWhile isSp2).all (fun c => !(c == '\n')) = true := by
        rw [List.all_eq_true]
        intro x hx
        have hx2 := List.mem_takeWhile_imp hx
        have : ¬(x = '\n') := by
          intro hxx
          rw [hxx] at hx2
          cases hx2
        simp [this]
      have hPd : (fun c => !(c == '\n')) d = false := by
        rw [hn]
        simp
      have htw : z.takeWhile (fun c => !(c == '\n')) = z.takeWhile isSp2 := by
        conv_lhs => rw [hz]
        exact takeWhile_append_stop _ _ d rest hSP hPd
      rw [htw] at hcont
      rcases List.any_eq_true.mp hcont with ⟨x, hx, hnx⟩
      have := List.mem_takeWhile_imp hx
      rw [this] at hnx
      cases hnx
    · unfold dropBlankLines
      conv_lhs => rw [hz]
      rw [dropBlankLinesGo_stop (z.takeWhile isSp2) [] d rest hS hd hn]
      simp only [List.reverse_nil, List.nil_append]
      exact hz.symm

/-- A nonempty raw-code result has a non-blank character on its first line:
otherwise the blank-line strip would have consumed the line, or the
whitespace strip would have consumed the string. -/
theorem rawCode_content (z : List Char) (hne : ¬(rawCode z = [])) :
    ((rawCode z).takeWhile (fun c => !(c == '\n'))).any (fun c => !isSp2 c) = true := by
  by_contra hcont
  have hcont' : ((rawCode z).takeWhile (fun c => !(c == '\n'))).any (fun c => !isSp2 c) = false := by
    cases hq : ((rawCode z).takeWhile (fun c => !(c == '\n'))).any (fun c => !isSp2 c)
    · rfl
    · exact absurd hq hcont
  clear hcont
  have hsp2 : ∀ x ∈ (rawCode z).takeWhile (fun c => !(c == '\n')), isSp2 x = true := by
    intro x hx
    by_contra hxx
    have hxf : (!isSp2 x) = true := by
      cases hq : isSp2 x
      · rfl
      · exact absurd hq hxx
    have hany : ((rawCode z).takeWhile (fun c => !(c == '\n'))).any (fun c => !isSp2 c) = true :=
      List.any_eq_true.mpr ⟨x, hx, hxf⟩
    rw [hcont'] at hany
    cases hany
  rcases rstripWs_last (dropBlankLines z) with hnil | ⟨A, c, hAc, hcw⟩
  · exact hne hnil
  have hr : rawCode z = A ++ [c] := hAc
  cases hdw : (rawCode z).dropWhile (fun c => !(c == '\n')) with
  | nil =>
    have hallP : ∀ x ∈ rawCode z, (fun c => !(c == '\n')) x = true :=
      List.dropWhile_eq_nil_iff.mp hdw
    have htw : (rawCode z).takeWhile (fun c => !(c == '\n')) = rawCode z :=
      List.takeWhile_eq_self_iff.mpr hallP
    have hcmem : c ∈ rawCode z := by
      rw [hr]
      exact List.mem_append.mpr (Or.inr (List.mem_singleton.mpr rfl))
    have hcmem2 : c ∈ (rawCode z).takeWhile (fun c => !(c == '\n')) := by
      rw [htw]; exact hcmem
    have := hsp2 c hcmem2
    rw [isPySpace_of_isSp2 c this] at hcw
    cases hcw
  | cons e es =>
    have he : e = '\n' := by
      have := dropWhile_head_false (fun c => !(c == '\n')) (rawCode z) e es hdw
      simpa using this
    subst he
    have hsplit : rawCode z =
        (rawCode z).takeWhile (fun c => !(c == '\n')) ++ '\n' :: es := by
      conv_lhs =>
        rw [← List.takeWhile_append_dropWhile (p := fun c => !(c == '\n')) (l := rawCode z)]
      rw [hdw]
    rcases rstripWs_decomp (dropBlankLines z) with ⟨t, htw, hzt⟩
    have hz' : dropBlankLines z =
        (rawCode z).takeWhile (fun c => !(c == '\n')) ++ '\n' :: (es ++ t) := by
      show dropBlankLines z = _
      rw [show rstripWs (dropBlankLines z) = rawCode z from rfl] at hzt
      rw [hzt]
      conv_lhs => rw [hsplit]
      simp
    have hallS : ((rawCode z).takeWhile (fun c => !(c == '\n'))).all isSp2 = true :=
      List.all_eq_true.mpr hsp2
    have hpost := dropBlankLinesGo_post z [] rfl
    have hpost' : ¬(charAt (dropBlankLines z)
        (((dropBlankLines z).takeWhile isSp2).length) = some '\n') := hpost
    have htake : (dropBlankLines z).takeWhile isSp2 =
        (rawCode z).takeWhile (fun c => !(c == '\n')) := by
      rw [hz']
      exact takeWhile_append_stop isSp2 _ '\n' _ hallS (by decide)
    rw [htake, hz'] at hpost'
    exact hpost' (charAt_append _ '\n' _)

/-- The first line of the split is the newline-free prefix. -/
theorem splitNl_head (z : List Char) :
    ∃ t, splitNl z = (z.takeWhile (fun c => !(c == '\n'))) :: t := by
  induction z with
  | nil => exact ⟨[], rfl⟩
  | cons c rest ih =>
    unfold splitNl
    by_cases hc : c = '\n'
    · rw [if_pos hc]
      subst hc
      refine ⟨splitNl rest, ?_⟩
      rw [List.takeWhile_cons]
      simp
    · rw [if_neg hc]
      rcases ih with ⟨t, ht⟩
      rw [ht]
      refine ⟨t, ?_⟩
      rw [List.takeWhile_cons]
      have : (!(c == '\n')) = true := by simp [hc]
      rw [this]
      simp

/-- A cons cell keeps the last element of its nonempty tail. -/
theorem getLast?_cons_ne_nil {α : Type} (x : α) (w : List α) (hw : ¬(w = [])) :
    (x :: w).getLast? = w.getLast? := by
  cases w with
  | nil => exact absurd rfl hw
  | cons b bs => exact List.getLast?_cons_cons

/-- A list with a last element is nonempty. -/
theorem ne_nil_of_getLast? {α : Type} (l : List α) (x : α)
    (h : l.getLast? = some x) : ¬(l = []) := by
  intro hl
  rw [hl] at h
  cases h

/-- The last line of the split carries the string's last character when that
character is not a newline. -/
theorem splitNl_getLast (z : List Char) (c : Char) (hz : z.getLast? = some c)
    (hc : ¬(c = '\n')) :
    ∃ L, (splitNl z).getLast? = some L ∧ L.getLast? = some c := by
  induction z with
  | nil => cases hz
  | cons a z' ih =>
    cases z' with
    | nil =>
      have hac : a = c := by
        simp [List.getLast?] at hz
        exact hz
      subst hac
      refine ⟨[a], ?_, rfl⟩
      unfold splitNl
      rw [if_neg (by rwa [] at hc : ¬(a = '\n'))]
      rfl
    | cons b z'' =>
      have hz2 : (b :: z'').getLast? = some c := by
        rw [← List.getLast?_cons_cons (a := a)]
        exact hz
      rcases ih hz2 with ⟨L, hL1, hL2⟩
      unfold splitNl
      by_cases ha : a = '\n'
      · rw [if_pos ha]
        refine ⟨L, ?_, hL2⟩
        rw [getLast?_cons_ne_nil _ _ (splitNl_ne_nil (b :: z''))]
        exact hL1
      · rw [if_neg ha]
        cases hs : splitNl (b :: z'') with
        | nil => exact absurd hs (splitNl_ne_nil (b :: z''))
        | cons l ls =>
          cases ls with
          | nil =>
            rw [hs] at hL1
            have hlL : l = L := by
              simp [List.getLast?] at hL1
              exact hL1
            subst hlL
            refine ⟨a :: l, rfl, ?_⟩
            rw [getLast?_cons_ne_nil a l (ne_nil_of_getLast? l c hL2)]
            exact hL2
          | cons l2 ls2 =>
            rw [hs] at hL1
            refine ⟨L, ?_, hL2⟩
            rw [List.getLast?_cons_cons]
            rw [List.getLast?_cons_cons] at hL1
            exact hL1

/-- The join of lines ending in a nonempty last line ends with that line's
last character. -/
theorem joinNl_getLast (ls : List (List Char)) (L : List Char)
    (h : ls.getLast? = some L) (hL : ¬(L = [])) :
    (joinNl ls).getLast? = L.getLast? := by
  induction ls with
  | nil => cases h
  | cons l ls2 ih =>
    cases ls2 with
    | nil =>
      have hlL : l = L := by
        simp [List.getLast?] at h
        exact h
      subst hlL
      rfl
    | cons l2 ls3 =>
      rw [List.getLast?_cons_cons] at h
      have hrec := ih h
      show (l ++ '\n' :: joinNl (l2 :: ls3)).getLast? = L.getLast?
      rw [List.getLast?_append]
      have hJ : (joinNl (l2 :: ls3)).getLast? = L.getLast? := hrec
      have hLs : ∃ x, L.getLast? = some x := by
        cases hLl : L.getLast? with
        | none =>
          exfalso
          cases L with
          | nil => exact hL rfl
          | cons y ys =>
            rw [List.getLast?_eq_head?_reverse] at hLl
            cases hyr : (y :: ys).reverse with
            | nil =>
              have := congrArg List.length hyr
              simp at this
            | cons w ws => rw [hyr] at hLl; cases hLl
        | some x => exact ⟨x, rfl⟩
      rcases hLs with ⟨x, hx⟩
      have hJne : ¬(joinNl (l2 :: ls3) = []) := by
        apply ne_nil_of_getLast? _ x
        rw [hJ, hx]
      rw [getLast?_cons_ne_nil '\n' _ hJne, hJ, hx]
      rfl

/-! ### The dedent margin is a longest common prefix -/

/-- The common prefix is a prefix of its left argument. -/
theorem lcp2_prefix_left : ∀ a b : List Char, lcp2 a b <+: a := by
  intro a
  induction a with
  | nil => intro b; cases b <;> exact List.nil_prefix
  | cons x as ih =>
    intro b
    cases b with
    | nil => exact List.nil_prefix
    | cons y bs =>
      unfold lcp2
      by_cases hxy : x = y
      · rw [if_pos hxy]
        exact List.cons_prefix_cons.mpr ⟨rfl, ih bs⟩
      · rw [if_neg hxy]
        exact List.nil_prefix

/-- The common prefix is a prefix of its right argument. -/
theorem lcp2_prefix_right : ∀ a b : List Char, lcp2 a b <+: b := by
  intro a
  induction a with
  | nil => intro b; cases b <;> exact List.nil_prefix
  | cons x as ih =>
    intro b
    cases b with
    | nil => exact List.nil_prefix
    | cons y bs =>
      unfold lcp2
      by_cases hxy : x = y
      · rw [if_pos hxy]
        exact List.cons_prefix_cons.mpr ⟨hxy, ih bs⟩
      · rw [if_neg hxy]
        exact List.nil_prefix

/-- Any common prefix factors through `lcp2`. -/
theorem prefix_lcp2 : ∀ z a b : List Char, z <+: a → z <+: b → z <+: lcp2 a b := by
  intro z
  induction z with
  | nil => intro a b _ _; exact List.nil_prefix
  | cons w zs ih =>
    intro a b ha hb
    cases a with
    | nil => exact absurd (List.IsPrefix.length_le ha) (by simp)
    | cons x as =>
      cases b with
      | nil => exact absurd (List.IsPrefix.length_le hb) (by simp)
      | cons y bs =>
        rcases List.cons_prefix_cons.mp ha with ⟨hwx, ha'⟩
        rcases List.cons_prefix_cons.mp hb with ⟨hwy, hb'⟩
        unfold lcp2
        have hxy : x = y := by rw [← hwx, ← hwy]
        rw [if_pos hxy]
        exact List.cons_prefix_cons.mpr ⟨hwx, ih as bs ha' hb'⟩

/-- The folded common prefix is a prefix of the seed and of every element. -/
theorem foldl_lcp2_pref : ∀ (rest : List (List Char)) (i0 : List Char),
    (List.foldl lcp2 i0 rest <+: i0) ∧
      ∀ x ∈ rest, List.foldl lcp2 i0 rest <+: x := by
  intro rest
  induction rest with
  | nil => intro i0; exact ⟨List.prefix_rfl, fun x hx => absurd hx (by simp)⟩
  | cons a rest' ih =>
    intro i0
    rw [List.foldl_cons]
    rcases ih (lcp2 i0 a) with ⟨h1, h2⟩
    refine ⟨h1.trans (lcp2_prefix_left i0 a), ?_⟩
    intro x hx
    rcases List.mem_cons.mp hx with hx | hx
    · subst hx
      exact h1.trans (lcp2_prefix_right i0 x)
    · exact h2 x hx

/-- Any prefix common to the seed and all elements is a prefix of the fold. -/
theorem prefix_foldl_lcp2 : ∀ (rest : List (List Char)) (i0 z : List Char),
    z <+: i0 → (∀ x ∈ rest, z <+: x) → z <+: List.foldl lcp2 i0 rest := by
  intro rest
  induction rest with
  | nil => intro i0 z h _; exact h
  | cons a rest' ih =>
    intro i0 z h hall
    rw [List.foldl_cons]
    exact ih (lcp2 i0 a) z
      (prefix_lcp2 z i0 a h (hall a (List.mem_cons_self a rest')))
      (fun x hx => hall x (List.mem_cons_of_mem a hx))

/-- The margin is a prefix of every nonempty line's indentation. -/
theorem marginOf_pref (ls : List (List Char)) (m : List Char)
    (h : marginOf ls = some m) :
    ∀ l ∈ ls, ¬(l = []) → m <+: indentOf l := by
  intro l hl hlne
  unfold marginOf at h
  cases hfl : (ls.filter (fun l => !l.isEmpty)).map indentOf with
  | nil => rw [hfl] at h; cases h
  | cons i0 restI =>
    rw [hfl] at h
    have hm : m = List.foldl lcp2 i0 restI := by
      injection h with h1
      exact h1.symm
    subst hm
    have hmem : indentOf l ∈ i0 :: restI := by
      rw [← hfl]
      apply List.mem_map_of_mem
      apply List.mem_filter.mpr
      refine ⟨hl, ?_⟩
      cases hll : l
      · exact absurd hll hlne
      · simp
    rcases List.mem_cons.mp hmem with hmem | hmem
    · rw [hmem]
      exact (foldl_lcp2_pref restI i0).1
    · exact (foldl_lcp2_pref restI i0).2 _ hmem

/-- The margin is the longest such prefix. -/
theorem marginOf_max (ls : List (List Char)) (m : List Char)
    (h : marginOf ls = some m) (z : List Char)
    (hz : ∀ l ∈ ls, ¬(l = []) → z <+: indentOf l) : z <+: m := by
  unfold marginOf at h
  cases hfl : (ls.filter (fun l => !l.isEmpty)).map indentOf with
  | nil => rw [hfl] at h; cases h
  | cons i0 restI =>
    rw [hfl] at h
    have hm : m = List.foldl lcp2 i0 restI := by
      injection h with h1
      exact h1.symm
    subst hm
    have hofz : ∀ x ∈ i0 :: restI, z <+: x := by
      intro x hx
      rw [← hfl] at hx
      rcases List.mem_map.mp hx with ⟨l, hlf, hli⟩
      rcases List.mem_filter.mp hlf with ⟨hlm, hlne⟩
      have : ¬(l = []) := by
        intro hc
        rw [hc] at hlne
        simp at hlne
      rw [← hli]
      exact hz l hlm this
    exact prefix_foldl_lcp2 restI i0 z
      (hofz i0 (List.mem_cons_self i0 restI))
      (fun x hx => hofz x (List.mem_cons_of_mem i0 hx))

/-- The margin consists of spaces and tabs. -/
theorem marginOf_sp2 (ls : List (List Char)) (m : List Char)
    (h : marginOf ls = some m) : m.all isSp2 = true := by
  unfold marginOf at h
  cases hfl : (ls.filter (fun l => !l.isEmpty)).map indentOf with
  | nil => rw [hfl] at h; cases h
  | cons i0 restI =>
    rw [hfl] at h
    have hm : m = List.foldl lcp2 i0 restI := by
      injection h with h1
      exact h1.symm
    subst hm
    have hi0 : i0.all isSp2 = true := by
      have hmem : i0 ∈ (ls.filter (fun l => !l.isEmpty)).map indentOf := by
        rw [hfl]
        exact List.mem_cons_self i0 restI
      rcases List.mem_map.mp hmem with ⟨l, _, hli⟩
      rw [← hli]
      rw [List.all_eq_true]
      intro x hx
      exact List.mem_takeWhile_imp hx
    rw [List.all_eq_true]
    intro x hx
    exact List.all_eq_true.mp hi0 x
      ((foldl_lcp2_pref restI i0).1.subset hx)

/-! ### Dedent preserves line structure -/

/-- The last element of a list is a member. -/
theorem mem_of_getLast? {α : Type} (l : List α) (x : α)
    (h : l.getLast? = some x) : x ∈ l := by
  rw [List.getLast?_eq_head?_reverse] at h
  cases hr : l.reverse with
  | nil => rw [hr] at h; cases h
  | cons y ys =>
    rw [hr] at h
    have hyx : y = x := by injection h
    have hx : x ∈ l.reverse := by
      rw [hr, ← hyx]
      exact List.mem_cons_self y ys
    exact List.mem_reverse.mp hx

/-- Mapping a function that fixes every member is the identity. -/
theorem map_self {α : Type} (f : α → α) (l : List α)
    (h : ∀ x ∈ l, f x = x) : l.map f = l := by
  induction l with
  | nil => rfl
  | cons a as ih =>
    rw [List.map_cons, h a (List.mem_cons_self a as),
      ih (fun x hx => h x (List.mem_cons_of_mem a hx))]

/-- A whitespace-only line is normalised away; any other line is kept. -/
theorem normLine_cases (l : List Char) :
    normLine l = [] ∨
      (normLine l = l ∧ (normLine l).any (fun c => !isSp2 c) = true) := by
  unfold normLine
  by_cases hb : isBlankInd l = true
  · left; rw [if_pos hb]
  · rw [if_neg hb]
    cases hl : l with
    | nil => left; rfl
    | cons a as =>
      right
      refine ⟨rfl, ?_⟩
      unfold isBlankInd at hb
      rw [hl] at hb
      have hnall : ¬((a :: as).all isSp2 = true) := by
        intro hall
        exact hb (by simp [hall])
      rw [List.all_eq_true] at hnall
      push_neg at hnall
      rcases hnall with ⟨x, hxm, hxs⟩
      apply List.any_eq_true.mpr
      refine ⟨x, hxm, ?_⟩
      cases hq : isSp2 x
      · rfl
      · exact absurd hq hxs

/-- A line with visible content is kept as is. -/
theorem normLine_of_content (l : List Char)
    (h : l.any (fun c => !isSp2 c) = true) : normLine l = l := by
  unfold normLine
  have : ¬(isBlankInd l = true) := by
    intro hb
    unfold isBlankInd at hb
    rcases Bool.and_eq_true_iff.mp hb with ⟨_, hall⟩
    rcases List.any_eq_true.mp h with ⟨x, hxm, hxs⟩
    rw [List.all_eq_true.mp hall x hxm] at hxs
    cases hxs
  rw [if_neg this]

/-- Dropping an all-blank prefix keeps the visible content. -/
theorem content_drop (m l : List Char) (hp : m <+: l)
    (hsp : m.all isSp2 = true) (hc : l.any (fun c => !isSp2 c) = true) :
    (l.drop m.length).any (fun c => !isSp2 c) = true := by
  rcases hp with ⟨t, rfl⟩
  rw [List.drop_left]
  rw [List.any_append] at hc
  rcases Bool.or_eq_true_iff.mp hc with hm | ht
  · exfalso
    rcases List.any_eq_true.mp hm with ⟨x, hxm, hxs⟩
    rw [List.all_eq_true.mp hsp x hxm] at hxs
    cases hxs
  · exact ht

/-- Stripping part of the indentation leaves the rest of the indentation. -/
theorem indentOf_drop (l m : List Char)
    (hc : l.any (fun c => !isSp2 c) = true) (hp : m <+: indentOf l) :
    indentOf (l.drop m.length) = (indentOf l).drop m.length := by
  have hR : ¬(l.dropWhile isSp2 = []) := by
    intro hnil
    rcases List.any_eq_true.mp hc with ⟨x, hxm, hxs⟩
    rw [List.dropWhile_eq_nil_iff.mp hnil x hxm] at hxs
    cases hxs
  cases hRc : l.dropWhile isSp2 with
  | nil => exact absurd hRc hR
  | cons d rest =>
    have hd : isSp2 d = false := dropWhile_head_false isSp2 l d rest hRc
    have hsplit : l = indentOf l ++ d :: rest := by
      conv_lhs => rw [← List.takeWhile_append_dropWhile (p := isSp2) (l := l)]
      rw [hRc]
      rfl
    have hlen : m.length ≤ (indentOf l).length := hp.length_le
    have hdrop : l.drop m.length = (indentOf l).drop m.length ++ d :: rest := by
      conv_lhs => rw [hsplit]
      rw [List.drop_append_eq_append_drop, Nat.sub_eq_zero_of_le hlen]
      rfl
    rw [hdrop]
    unfold indentOf
    apply takeWhile_append_stop
    · rw [List.all_eq_true]
      intro x hx
      exact List.mem_takeWhile_imp (List.mem_of_mem_drop hx)
    · exact hd

/-- After stripping the common margin, no nonempty common indentation
remains. -/
theorem margin_drop_nil (lines : List (List Char)) (m m₂ : List Char)
    (hOK : ∀ l ∈ lines, l = [] ∨ l.any (fun c => !isSp2 c) = true)
    (hm : marginOf lines = some m)
    (hm2 : marginOf (lines.map
      (fun l => if m.isPrefixOf l then l.drop m.length else l)) = some m₂) :
    m₂ = [] := by
  by_contra hne
  cases hm2c : m₂ with
  | nil => exact hne hm2c
  | cons d m₂' =>
    subst hm2c
    have hsp := marginOf_sp2 lines m hm
    have hclaim : ∀ l ∈ lines, ¬(l = []) → (m ++ [d]) <+: indentOf l := by
      intro l hl hlne
      have hcont : l.any (fun c => !isSp2 c) = true := by
        rcases hOK l hl with hnil | hcont
        · exact absurd hnil hlne
        · exact hcont
      have hind : m <+: indentOf l := marginOf_pref lines m hm l hl hlne
      have hpl : m <+: l := hind.trans (List.takeWhile_prefix isSp2)
      have hgl : (if m.isPrefixOf l then l.drop m.length else l) = l.drop m.length := by
        rw [if_pos (List.isPrefixOf_iff_prefix.mpr hpl)]
      have hglmem : l.drop m.length ∈ lines.map
          (fun l => if m.isPrefixOf l then l.drop m.length else l) := by
        rw [← hgl]
        exact List.mem_map_of_mem _ hl
      have hglne : ¬(l.drop m.length = []) := by
        intro hnil
        have := content_drop m l hpl hsp hcont
        rw [hnil] at this
        cases this
      have hpref := marginOf_pref _ _ hm2 (l.drop m.length) hglmem hglne
      rw [indentOf_drop l m hcont hind] at hpref
      rcases hind with ⟨t, hit⟩
      have hteq : (indentOf l).drop m.length = t := by
        rw [← hit, List.drop_left]
      rw [hteq] at hpref
      rw [← hit]
      rw [List.prefix_append_right_inj]
      rcases hpref with ⟨w, hw⟩
      refine ⟨m₂' ++ w, ?_⟩
      rw [← hw]
      simp
    have := marginOf_max lines m hm (m ++ [d]) hclaim
    have hlen := this.length_le
    simp at hlen

/-- A nonempty list has a last element. -/
theorem exists_getLast?_of_ne_nil {α : Type} (l : List α) (h : ¬(l = [])) :
    ∃ x, l.getLast? = some x := by
  cases hr : l.reverse with
  | nil =>
    exfalso
    apply h
    have := congrArg List.reverse hr
    simpa using this
  | cons y ys =>
    refine ⟨y, ?_⟩
    rw [List.getLast?_eq_head?_reverse, hr]
    rfl

/-- A join of newline-free lines whose first line has visible content and
whose last line ends in non-whitespace is a fixed point of the raw-code
strip, and splits back into its lines. -/
theorem joinNl_fix (ls : List (List Char)) (hd : List Char)
    (tl : List (List Char)) (c : Char)
    (hcons : ls = hd :: tl)
    (hnl : ∀ l ∈ ls, ¬('\n' ∈ l))
    (hhead : hd.any (fun x => !isSp2 x) = true)
    (hlast : ∃ LL, ls.getLast? = some LL ∧ LL.getLast? = some c)
    (hcw : isPySpace c = false) :
    rawCode (joinNl ls) = joinNl ls ∧ splitNl (joinNl ls) = ls := by
  subst hcons
  have hne : ¬(hd :: tl = []) := by simp
  have hsplit : splitNl (joinNl (hd :: tl)) = hd :: tl :=
    splitNl_joinNl (hd :: tl) hne hnl
  refine ⟨?_, hsplit⟩
  have hfirst : (joinNl (hd :: tl)).takeWhile (fun x => !(x == '\n')) = hd := by
    obtain ⟨t', ht'⟩ := splitNl_head (joinNl (hd :: tl))
    rw [hsplit] at ht'
    injection ht' with h1 _
    exact h1.symm
  have hdbl : dropBlankLines (joinNl (hd :: tl)) = joinNl (hd :: tl) := by
    apply dropBlankLines_fix
    rw [hfirst]
    exact hhead
  rcases hlast with ⟨LL, hLL1, hLL2⟩
  have hwlast : (joinNl (hd :: tl)).getLast? = some c := by
    rw [joinNl_getLast (hd :: tl) LL hLL1 (ne_nil_of_getLast? LL c hLL2)]
    exact hLL2
  show rstripWs (dropBlankLines (joinNl (hd :: tl))) = joinNl (hd :: tl)
  rw [hdbl]
  exact rstripWs_fix (joinNl (hd :: tl)) c hwlast hcw

/-- A join of already-normalised lines with no common margin is a fixed point
of dedent. -/
theorem pyDedent_fix_of (ls : List (List Char))
    (hok : ∀ l ∈ ls, normLine l = l)
    (hsplit : splitNl (joinNl ls) = ls)
    (hmar : marginOf ls = none ∨ marginOf ls = some []) :
    pyDedent (joinNl ls) = joinNl ls := by
  unfold pyDedent
  rw [hsplit, map_self normLine ls hok]
  dsimp only
  rcases hmar with hm | hm <;> (rw [hm]; try rfl)

/-- Dedenting the raw-extracted code is a fixed point of both the raw-code
strip and dedent itself. -/
theorem pyDedent_rawCode_fix (z : List Char) :
    rawCode (pyDedent (rawCode z)) = pyDedent (rawCode z) ∧
    pyDedent (pyDedent (rawCode z)) = pyDedent (rawCode z) := by
  by_cases hr0 : rawCode z = []
  · rw [hr0]
    exact ⟨by decide, by decide⟩
  · have hcontFL := rawCode_content z hr0
    obtain ⟨t0, hsh⟩ := splitNl_head (rawCode z)
    rcases rstripWs_last (dropBlankLines z) with hnil | ⟨A, c, hAc, hcw⟩
    · exact absurd hnil hr0
    have hAc' : rawCode z = A ++ [c] := hAc
    have hrlast : (rawCode z).getLast? = some c := by
      rw [hAc']
      exact List.getLast?_concat A
    have hcnl : ¬(c = '\n') := by
      intro hcc
      have hPy : isPySpace '\n' = true := by decide
      rw [hcc, hPy] at hcw
      cases hcw
    obtain ⟨L, hLlast, hLc⟩ := splitNl_getLast (rawCode z) c hrlast hcnl
    have hcsp2 : (!isSp2 c) = true := by
      cases hq : isSp2 c
      · rfl
      · rw [isPySpace_of_isSp2 c hq] at hcw
        cases hcw
    have hLcont : L.any (fun x => !isSp2 x) = true :=
      List.any_eq_true.mpr ⟨c, mem_of_getLast? L c hLc, hcsp2⟩
    have hLne : ¬(L = []) := ne_nil_of_getLast? L c hLc
    have hFLnorm : normLine ((rawCode z).takeWhile (fun x => !(x == '\n'))) =
        (rawCode z).takeWhile (fun x => !(x == '\n')) :=
      normLine_of_content _ hcontFL
    have hlines_cons : (splitNl (rawCode z)).map normLine =
        ((rawCode z).takeWhile (fun x => !(x == '\n'))) :: t0.map normLine := by
      rw [hsh, List.map_cons, hFLnorm]
    have hlines_nl : ∀ l ∈ (splitNl (rawCode z)).map normLine, ¬('\n' ∈ l) := by
      intro l hl
      rcases List.mem_map.mp hl with ⟨l0, hl0, rfl⟩
      rcases normLine_cases l0 with hln | ⟨hln, _⟩ <;> rw [hln]
      · simp
      · exact splitNl_mem_no_nl (rawCode z) l0 hl0
    have hlinesOK : ∀ l ∈ (splitNl (rawCode z)).map normLine,
        l = [] ∨ l.any (fun x => !isSp2 x) = true := by
      intro l hl
      rcases List.mem_map.mp hl with ⟨l0, hl0, rfl⟩
      rcases normLine_cases l0 with hln | ⟨_, hcont⟩
      · exact Or.inl hln
      · exact Or.inr hcont
    have hLn : normLine L = L := normLine_of_content L hLcont
    have hlines_last : ((splitNl (rawCode z)).map normLine).getLast? = some L := by
      rw [List.getLast?_map, hLlast]
      simp [hLn]
    have hLmem : L ∈ (splitNl (rawCode z)).map normLine :=
      mem_of_getLast? _ L hlines_last
    have hok_norm : ∀ l ∈ (splitNl (rawCode z)).map normLine, normLine l = l := by
      intro l hl
      rcases hlinesOK l hl with hln | hcont
      · rw [hln]; rfl
      · exact normLine_of_content l hcont
    cases hm : marginOf ((splitNl (rawCode z)).map normLine) with
    | none =>
      exfalso
      have hfilter : ((splitNl (rawCode z)).map normLine).filter
          (fun l => !l.isEmpty) = [] := by
        unfold marginOf at hm
        cases hfl : ((((splitNl (rawCode z)).map normLine).filter
            (fun l => !l.isEmpty)).map indentOf) with
        | cons i0 r' => rw [hfl] at hm; cases hm
        | nil => exact List.map_eq_nil_iff.mp hfl
      have hnotL := List.filter_eq_nil_iff.mp hfilter L hLmem
      apply hnotL
      cases hLl : L with
      | nil => exact absurd hLl hLne
      | cons a as => simp
    | some m =>
      have hmsp := marginOf_sp2 _ m hm
      by_cases hme : m.isEmpty = true
      · have hmnil : m = [] := List.isEmpty_iff.mp hme
        have hy : pyDedent (rawCode z) =
            joinNl ((splitNl (rawCode z)).map normLine) := by
          unfold pyDedent
          dsimp only
          rw [hm]
          dsimp only
          rw [if_pos hme]
        rcases joinNl_fix ((splitNl (rawCode z)).map normLine)
            ((rawCode z).takeWhile (fun x => !(x == '\n'))) (t0.map normLine) c
            hlines_cons hlines_nl hcontFL ⟨L, hlines_last, hLc⟩ hcw with ⟨hfix1, hfix2⟩
        constructor
        · rw [hy]; exact hfix1
        · rw [hy]
          exact pyDedent_fix_of _ hok_norm hfix2 (Or.inr (hmnil ▸ hm))
      · have hmne : ¬(m = []) := by
          intro hc
          rw [hc] at hme
          exact hme rfl
        have hy : pyDedent (rawCode z) =
            joinNl (((splitNl (rawCode z)).map normLine).map
              (fun l => if m.isPrefixOf l then l.drop m.length else l)) := by
          unfold pyDedent
          dsimp only
          rw [hm]
          dsimp only
          rw [if_neg hme]
        have hgl : ∀ l ∈ (splitNl (rawCode z)).map normLine,
            l.any (fun x => !isSp2 x) = true →
            (if m.isPrefixOf l then l.drop m.length else l) = l.drop m.length ∧
            (l.drop m.length).any (fun x => !isSp2 x) = true := by
          intro l hl hcont
          have hlne : ¬(l = []) := by
            intro hc; rw [hc] at hcont; cases hcont
          have hind : m <+: indentOf l := marginOf_pref _ m hm l hl hlne
          have hpl : m <+: l := hind.trans (List.takeWhile_prefix isSp2)
          exact ⟨by rw [if_pos (List.isPrefixOf_iff_prefix.mpr hpl)],
            content_drop m l hpl hmsp hcont⟩
        have hFLmem : ((rawCode z).takeWhile (fun x => !(x == '\n'))) ∈
            (splitNl (rawCode z)).map normLine := by
          rw [hlines_cons]
          exact List.mem_cons_self _ _
        obtain ⟨hgFL, hgFLcont⟩ := hgl _ hFLmem hcontFL
        have hcons₂ : ((splitNl (rawCode z)).map normLine).map
            (fun l => if m.isPrefixOf l then l.drop m.length else l) =
            (if m.isPrefixOf ((rawCode z).takeWhile (fun x => !(x == '\n')))
              then ((rawCode z).takeWhile (fun x => !(x == '\n'))).drop m.length
              else ((rawCode z).takeWhile (fun x => !(x == '\n')))) ::
            (t0.map normLine).map
              (fun l => if m.isPrefixOf l then l.drop m.length else l) := by
          rw [hlines_cons]
          rfl
        have hnl₂ : ∀ l ∈ ((splitNl (rawCode z)).map normLine).map
            (fun l => if m.isPrefixOf l then l.drop m.length else l),
            ¬('\n' ∈ l) := by
          intro l hl
          rcases List.mem_map.mp hl with ⟨l0, hl0, rfl⟩
          intro hmem
          apply hlines_nl l0 hl0
          by_cases hp : m.isPrefixOf l0 = true
          · rw [if_pos hp] at hmem
            exact List.mem_of_mem_drop hmem
          · rw [if_neg hp] at hmem
            exact hmem
        have hLind : m <+: indentOf L := marginOf_pref _ m hm L hLmem hLne
        have hpL : m <+: L := hLind.trans (List.takeWhile_prefix isSp2)
        obtain ⟨tL, htL⟩ := hpL
        have hpL' : m <+: L := ⟨tL, htL⟩
        have hdropL : L.drop m.length = tL := by
          rw [← htL, List.drop_left]
        have htLcont : tL.any (fun x => !isSp2 x) = true := by
          have hcd := content_drop m L hpL' hmsp hLcont
          rw [hdropL] at hcd
          exact hcd
        have htLne : ¬(tL = []) := by
          intro hc
          rw [hc] at htLcont
          cases htLcont
        have htLlast : tL.getLast? = some c := by
          have hmt : (m ++ tL).getLast? = some c := by
            rw [htL]
            exact hLc
          rw [List.getLast?_append] at hmt
          obtain ⟨x, hx⟩ := exists_getLast?_of_ne_nil tL htLne
          rw [hx] at hmt
          rw [hx]
          simpa using hmt
        have hgLeq : (if m.isPrefixOf L then L.drop m.length else L) = tL := by
          rw [if_pos (List.isPrefixOf_iff_prefix.mpr hpL'), hdropL]
        have hlast₂ : (((splitNl (rawCode z)).map normLine).map
            (fun l => if m.isPrefixOf l then l.drop m.length else l)).getLast? =
            some tL := by
          rw [List.getLast?_map, hlines_last]
          show some (if m.isPrefixOf L then L.drop m.length else L) = some tL
          rw [hgLeq]
        have hhead₂ : (if m.isPrefixOf ((rawCode z).takeWhile (fun x => !(x == '\n')))
            then ((rawCode z).takeWhile (fun x => !(x == '\n'))).drop m.length
            else ((rawCode z).takeWhile (fun x => !(x == '\n')))).any
              (fun x => !isSp2 x) = true := by
          rw [hgFL]
          exact hgFLcont
        rcases joinNl_fix _ _ _ c hcons₂ hnl₂ hhead₂ ⟨tL, hlast₂, htLlast⟩ hcw with
          ⟨hfix1, hfix2⟩
        have hok₂ : ∀ l ∈ ((splitNl (rawCode z)).map normLine).map
            (fun l => if m.isPrefixOf l then l.drop m.length else l),
            normLine l = l := by
          intro l hl
          rcases List.mem_map.mp hl with ⟨l0, hl0, rfl⟩
          rcases hlinesOK l0 hl0 with hln | hcont
          · rw [hln]
            by_cases hp : m.isPrefixOf ([] : List Char) = true <;> simp [hp, normLine, isBlankInd]
          · obtain ⟨hg1, hg2⟩ := hgl l0 hl0 hcont
            rw [hg1]
            exact normLine_of_content _ hg2
        have hmar₂ : marginOf (((splitNl (rawCode z)).map normLine).map
              (fun l => if m.isPrefixOf l then l.drop m.length else l)) = none ∨
            marginOf (((splitNl (rawCode z)).map normLine).map
              (fun l => if m.isPrefixOf l then l.drop m.length else l)) = some [] := by
          cases hm₂ : marginOf (((splitNl (rawCode z)).map normLine).map
              (fun l => if m.isPrefixOf l then l.drop m.length else l)) with
          | none => exact Or.inl rfl
          | some m₂ =>
            right
            rw [margin_drop_nil ((splitNl (rawCode z)).map normLine) m m₂
              hlinesOK hm hm₂]
        constructor
        · rw [hy]; exact hfix1
        · rw [hy]; exact pyDedent_fix_of _ hok₂ hfix2 hmar₂

/-- Claim C8, corrected: when no code-delimiter pattern matches the input,
`prepare_input` returns the text with leading blank lines and trailing
whitespace removed and then passed through `textwrap.dedent` — not "otherwise
unchanged" — and on such input extraction is idempotent:
`prepare_input (prepare_input s) = prepare_input s`. -/
theorem prepare_input_no_match (s : String) (h : finditer s.toList = []) :
    prepare_input s = String.mk (pyDedent (rawCode s.toList)) ∧
    prepare_input (prepare_input s) = prepare_input s := by
  have h1 : prepareInputL s.toList = pyDedent (rawCode s.toList) := by
    unfold prepareInputL
    rw [h]
  have hcnt : (prepareInputL s.toList).count bt ≤ 1 := by
    rw [h1]
    calc (pyDedent (rawCode s.toList)).count bt
        ≤ (rawCode s.toList).count bt := count_pyDedent_le _ bt (by decide)
      _ ≤ s.toList.count bt := count_rawCode_le _ bt
      _ ≤ 1 := count_le_one_of_finditer_nil _ h
  have hfy : finditer (prepareInputL s.toList) = [] :=
    finditer_nil_of_count_le_one _ hcnt
  obtain ⟨hfixR, hfixD⟩ := pyDedent_rawCode_fix s.toList
  have h2 : prepareInputL (prepareInputL s.toList) = prepareInputL s.toList := by
    rw [h1] at hfy ⊢
    unfold prepareInputL
    rw [hfy, hfixR, hfixD]
  refine ⟨?_, ?_⟩
  · show String.mk (prepareInputL s.toList) = String.mk (pyDedent (rawCode s.toList))
    rw [h1]
  · calc prepare_input (prepare_input s)
        = String.mk (prepareInputL (prepareInputL s.toList)) := rfl
      _ = String.mk (prepareInputL s.toList) := by rw [h2]
      _ = prepare_input s := rfl

/-- Counterexample to Claim C8 as stated: the input made of a space and the
letter a has no code-delimiter match, and has no leading blank line and no
trailing whitespace (its raw-code strip is itself), yet `prepare_input`
returns the bare letter: the leading space is removed by the dedent pass, so
the result is not "otherwise unchanged". -/
theorem prepare_input_dedents_unmatched :
    finditer (String.toList " a") = [] ∧
    rawCode (String.toList " a") = String.toList " a" ∧
    prepare_input " a" = "a" :=
  ⟨by decide, by decide, rfl⟩

/-- Instance of `prepare_input_no_match` on a concrete delimiter-free input. -/
theorem prepare_input_no_match_inst :
    finditer (String.toList "x\n  y") = [] ∧
    (prepare_input "x\n  y" = String.mk (pyDedent (rawCode (String.toList "x\n  y"))) ∧
     prepare_input (prepare_input "x\n  y") = prepare_input "x\n  y") :=
  ⟨by decide, prepare_input_no_match "x\n  y" (by decide)⟩

end Snekbox
